import Mathlib

/-!
Verification of the résumé text-extraction and field-inference engine of
`src/backend/server.js` (job-application-backend).

The heuristics of the source are built on JavaScript regular expressions
(`String.prototype.match` with non-global regexes, `String.prototype.replace`
with a non-global regex, `trim`, `split('\n')`).  We embed the regex dialect
actually used by the source — ordered alternation, greedy and lazy repetition,
character classes, optional groups, capture groups 1 and 2, lookahead `(?=…)`
and the end anchor `$` — as a small backtracking matcher over `List Char`
whose result list mirrors the JS engine's backtracking order, so that
`head?` is exactly the match JS returns.  External NLP calls (the
`compromise` library: `doc.match('#Person')`, `doc.match('#Education')`, …)
are not part of the repository; their outputs are passed to the embedded
functions as explicit oracle arguments, exactly where the source reads them.
-/

namespace JobApp

/-- ASCII lower-casing on code points, the case folding the JS `i` flag
performs on the ASCII-only patterns of the source. -/
def lowerCode (n : Nat) : Nat := if 65 ≤ n ∧ n ≤ 90 then n + 32 else n

/-- Characters matched by `[A-Za-z]` (and by `[A-Z]`/`[a-z]` under the `i` flag). -/
def isAsciiLetter (c : Char) : Bool :=
  (65 ≤ c.toNat && c.toNat ≤ 90) || (97 ≤ c.toNat && c.toNat ≤ 122)

/-- Characters matched by `\d`. -/
def isDigitC (c : Char) : Bool := 48 ≤ c.toNat && c.toNat ≤ 57

/-- Characters matched by `\s` (ASCII part: space, tab, LF, CR, VT, FF);
also the characters removed by `String.prototype.trim`. -/
def isJsWs (c : Char) : Bool :=
  c.toNat = 32 || c.toNat = 9 || c.toNat = 10 || c.toNat = 13 || c.toNat = 11 || c.toNat = 12

/-- Case-insensitive character comparison, as under the `i` flag. -/
def ciEqChar (a b : Char) : Bool := lowerCode a.toNat = lowerCode b.toNat

/-- Capture groups 1 and 2 of a regex match (the only groups the source reads:
`match[1]` for labels, `match[2]` for the captured value).  `none` models a
group that did not participate in the match (JS `undefined`). -/
structure Caps where
  g1 : Option (List Char) := none
  g2 : Option (List Char) := none
deriving DecidableEq

/-- Syntax of the JS regex fragment used by `server.js`:
`eps` empty, `cls` character class, `seq` concatenation, `alt` ordered
alternation (left tried first), `starG`/`starL` greedy/lazy `*`,
`look` lookahead `(?=…)`, `eos` the `$` anchor (no `m` flag in the source),
`group i` capture group number `i`. -/
inductive RE where
  | eps
  | cls (p : Char → Bool)
  | seq (a b : RE)
  | alt (a b : RE)
  | starG (r : RE)
  | starL (r : RE)
  | look (r : RE)
  | eos
  | group (i : Nat) (r : RE)

/-- Record the text consumed by capture group `i`. -/
def setCap (c : Caps) (i : Nat) (v : List Char) : Caps :=
  if i = 1 then { c with g1 := some v } else if i = 2 then { c with g2 := some v } else c

/-- Greedy-star iteration: try one more (consuming) iteration first, the empty
match last — the JS backtracking order for `r*`.  Iterations that consume
nothing are cut off, as the JS engine stops a `*` that makes no progress;
`n` bounds the number of iterations and `n = s.length` is always enough
because every kept iteration consumes at least one character. -/
def MstarG (f : List Char → Caps → List (List Char × Caps)) :
    Nat → List Char → Caps → List (List Char × Caps)
  | 0, s, c => [(s, c)]
  | n+1, s, c =>
    (((f s c).filter (fun q => q.1.length < s.length)).flatMap
      (fun q => MstarG f n q.1 q.2)) ++ [(s, c)]

/-- Lazy-star iteration: the empty match first, then one more iteration —
the JS backtracking order for `r*?`. -/
def MstarL (f : List Char → Caps → List (List Char × Caps)) :
    Nat → List Char → Caps → List (List Char × Caps)
  | 0, s, c => [(s, c)]
  | n+1, s, c =>
    (s, c) :: (((f s c).filter (fun q => q.1.length < s.length)).flatMap
      (fun q => MstarL f n q.1 q.2))

/-- The matcher.  `M re s c` is the list of all ways `re` can match a prefix of
`s` starting with captures `c`, each result being (remaining suffix, captures),
in the exact order the JS backtracking engine explores them; the engine's
answer is the head of this list.  Lookahead is atomic (first inner result
only, no consumption), as in JS. -/
def M : RE → List Char → Caps → List (List Char × Caps)
  | .eps, s, c => [(s, c)]
  | .cls _, [], _ => []
  | .cls p, x :: xs, c => if p x then [(xs, c)] else []
  | .seq a b, s, c => (M a s c).flatMap (fun q => M b q.1 q.2)
  | .alt a b, s, c => M a s c ++ M b s c
  | .starG r, s, c => MstarG (M r) s.length s c
  | .starL r, s, c => MstarL (M r) s.length s c
  | .look r, s, c =>
    match M r s c with
    | [] => []
    | (_, c') :: _ => [(s, c')]
  | .eos, s, c => if s.isEmpty then [(s, c)] else []
  | .group i r, s, c => (M r s c).map (fun q => (q.1, setCap c i (s.take (s.length - q.1.length))))

/-- Leftmost match, as `String.prototype.match` with a non-global regex:
scan start positions left to right, and at the first position where the regex
matches return (start position, matched text `match[0]`, capture groups). -/
def firstMatchAt (re : RE) : List Char → Nat → Option (Nat × List Char × Caps)
  | [], pos =>
    match (M re [] {}).head? with
    | some q => some (pos, [], q.2)
    | none => none
  | x :: xs, pos =>
    match (M re (x :: xs) {}).head? with
    | some q => some (pos, (x :: xs).take ((x :: xs).length - q.1.length), q.2)
    | none => firstMatchAt re xs (pos + 1)

/-- JS `String.prototype.replace` with a non-global regex and the empty
replacement string: remove the leftmost match, keep everything else. -/
def removeFirst (re : RE) (s : List Char) : List Char :=
  match firstMatchAt re s 0 with
  | some q => s.take q.1 ++ s.drop (q.1 + q.2.1.length)
  | none => s

/-- JS `String.prototype.trim` on a character list. -/
def jsTrim (l : List Char) : List Char :=
  ((l.dropWhile isJsWs).reverse.dropWhile isJsWs).reverse

/-- JS `String.prototype.split(sep)` with a single-character separator, on a
character list. -/
def splitOnChar (sep : Char) : List Char → List (List Char)
  | [] => [[]]
  | c :: cs =>
    if c = sep then [] :: splitOnChar sep cs
    else
      match splitOnChar sep cs with
      | [] => [[c]]
      | l :: ls => (c :: l) :: ls

/-- JS `String.prototype.split('\n')` on a character list. -/
def splitNl : List Char → List (List Char) := splitOnChar '\n'

/-- Build a `String` back from a character list. -/
def strOfL (l : List Char) : String := ⟨l⟩

/-- JS `[...new Set(list)]`: keep the first occurrence of each element,
in order (JS `Set` preserves insertion order). -/
def dedupAux : List String → List String → List String
  | _, [] => []
  | seen, x :: xs => if x ∈ seen then dedupAux seen xs else x :: dedupAux (x :: seen) xs

/-- Deduplication preserving first-occurrence order, the meaning of
`[...new Set(matches)]` in the source. -/
def dedupFirst (l : List String) : List String := dedupAux [] l

/-- Greedy `r?`. -/
def optRE (r : RE) : RE := .alt r .eps

/-- Greedy `r+`. -/
def plusG (r : RE) : RE := .seq r (.starG r)

/-- Case-insensitive literal string (a literal under the `i` flag). -/
def ciStr : List Char → RE
  | [] => .eps
  | c :: cs => .seq (.cls (fun x => ciEqChar x c)) (ciStr cs)

/-- Ordered alternation over a list (the empty list never matches). -/
def altList : List RE → RE
  | [] => .cls (fun _ => false)
  | r :: rs => .alt r (altList rs)

/-- `[\s\S]`. -/
def anyCharRE : RE := .cls (fun _ => true)

/-- `\s*`. -/
def wsStar : RE := .starG (.cls isJsWs)

/-- `\s+`. -/
def wsPlus : RE := plusG (.cls isJsWs)

/-- `[:\-]?`. -/
def colonDash : RE := optRE (.cls (fun c => c = ':' || c = '-'))

/-- One word of `([A-Z][a-z]+…)` under the `i` flag: with `i`, both `[A-Z]`
and `[a-z]` match any ASCII letter, so this is two-or-more ASCII letters. -/
def wordI : RE := .seq (.cls isAsciiLetter) (plusG (.cls isAsciiLetter))

/-- Group 2 of the name regex: `([A-Z][a-z]+(?:\s+[A-Z][a-z]+)+)` (with `i`). -/
def nameSeq : RE := .seq wordI (plusG (.seq wsPlus wordI))

/-- The all-optional front of the name regex: `(Name|NAME)?\s*[:\-]?\s*`. -/
def namePre : RE :=
  .seq (optRE (.group 1 (.alt (ciStr "Name".data) (ciStr "NAME".data))))
    (.seq wsStar (.seq colonDash wsStar))

/-- server.js:168 `/(Name|NAME)?\s*[:\-]?\s*([A-Z][a-z]+(?:\s+[A-Z][a-z]+)+)/i`. -/
def nameRE : RE := .seq namePre (.group 2 nameSeq)

/-- `[a-zA-Z0-9._%+-]+` — the local part of the email pattern. -/
def emailLocal : RE :=
  plusG (.cls (fun c =>
    isAsciiLetter c || isDigitC c || c = '.' || c = '_' || c = '%' || c = '+' || c = '-'))

/-- `[a-zA-Z0-9.-]+` — the domain part of the email pattern. -/
def emailDomain : RE :=
  plusG (.cls (fun c => isAsciiLetter c || isDigitC c || c = '.' || c = '-'))

/-- `[a-zA-Z]{2,}` — the TLD part of the email pattern. -/
def emailTld : RE :=
  .seq (.cls isAsciiLetter) (.seq (.cls isAsciiLetter) (.starG (.cls isAsciiLetter)))

/-- The bare email pattern `[a-zA-Z0-9._%+-]+@[a-zA-Z0-9.-]+\.[a-zA-Z]{2,}`. -/
def emailPat : RE :=
  .seq emailLocal (.seq (.cls (fun c => c = '@')) (.seq emailDomain
    (.seq (.cls (fun c => c = '.')) emailTld)))

/-- The all-optional front of the email regex: `(Email|EMAIL)?\s*[:\-]?\s*`. -/
def emailPre : RE :=
  .seq (optRE (.group 1 (.alt (ciStr "Email".data) (ciStr "EMAIL".data))))
    (.seq wsStar (.seq colonDash wsStar))

/-- server.js:187 `/(Email|EMAIL)?\s*[:\-]?\s*([a-zA-Z0-9._%+-]+@[a-zA-Z0-9.-]+\.[a-zA-Z]{2,})/i`. -/
def emailRE : RE := .seq emailPre (.group 2 emailPat)

/-- server.js:193 fallback `/([a-zA-Z0-9._%+-]+@[a-zA-Z0-9.-]+\.[a-zA-Z]{2,})/i`
(the code reads `match[0]`, the whole match). -/
def emailFallbackRE : RE := .group 1 emailPat

/-- The phone label alternatives, in the source's alternation order:
`Phone Number|Phone number|Contact Number|Contact number|Contact|CONTACT|Phone|PHONE`. -/
def labelAlts : List (List Char) :=
  ["Phone Number".data, "Phone number".data, "Contact Number".data, "Contact number".data,
   "Contact".data, "CONTACT".data, "Phone".data, "PHONE".data]

/-- The phone label alternation (case-insensitive, ordered). -/
def phoneLabelRE : RE := altList (labelAlts.map ciStr)

/-- `[-.\s]`. -/
def phoneSep : RE := .cls (fun c => c = '-' || c = '.' || isJsWs c)

/-- `\d`. -/
def digitRE : RE := .cls isDigitC

/-- Greedy `r{1,3}`. -/
def rep13 (r : RE) : RE := .seq r (optRE (.seq r (optRE r)))

/-- Exactly `r{n}`. -/
def repN (r : RE) : Nat → RE
  | 0 => .eps
  | n+1 => .seq r (repN r n)

/-- `(\+?\d{1,3}[-.\s]?)` — the optional-country-code group (group 2 of the
labeled phone regex). -/
def phoneCountry : RE :=
  .group 2 (.seq (optRE (.cls (fun c => c = '+'))) (.seq (rep13 digitRE) (optRE phoneSep)))

/-- The bare phone pattern `(\+?\d{1,3}[-.\s]?)?\(?\d{3}\)?[-.\s]?\d{3}[-.\s]?\d{4}`;
it is also the whole of the unlabeled fallback regex at server.js:206
(where the country-code group is numbered 1, but no group of it is read). -/
def phoneBody : RE :=
  .seq (optRE phoneCountry) (.seq (optRE (.cls (fun c => c = '(')))
    (.seq (repN digitRE 3) (.seq (optRE (.cls (fun c => c = ')')))
      (.seq (optRE phoneSep) (.seq (repN digitRE 3) (.seq (optRE phoneSep) (repN digitRE 4)))))))

/-- The all-optional front of the labeled phone regex: `(label)?\s*[:\-]?\s*`. -/
def phonePre : RE :=
  .seq (optRE (.group 1 phoneLabelRE)) (.seq wsStar (.seq colonDash wsStar))

/-- server.js:200
`/(Phone Number|Phone number|Contact Number|Contact number|Contact|CONTACT|Phone|PHONE)?\s*[:\-]?\s*(\+?\d{1,3}[-.\s]?)?\(?\d{3}\)?[-.\s]?\d{3}[-.\s]?\d{4}/i`
(the code reads `match[0]`, the whole match). -/
def phoneRE : RE := .seq phonePre phoneBody

/-- server.js:203 strip regex
`/(Phone Number|Phone number|Contact Number|Contact number|Contact|CONTACT|Phone|PHONE)[:\-]?\s*/i`,
applied with `replace(…, '')` to `match[0]`. -/
def phoneStripRE : RE := .seq (.group 1 phoneLabelRE) (.seq colonDash wsStar)

/-- The skills header vocabulary, in the source's alternation order
(server.js:268). -/
def skillsVocab : List (List Char) :=
  ["Skill".data, "Skills".data, "SKILL".data, "SKILLS".data,
   "Technical Skill".data, "Technical Skills".data,
   "TECHNICAL SKILL".data, "TECHNICAL SKILLS".data,
   "Qualifications".data, "QUALIFICATIONS".data]

/-- The lookahead terminators of the skills fallback regex:
`(?=Projects|Education|$)`. -/
def skillsTermRE : RE := .alt (ciStr "Projects".data) (.alt (ciStr "Education".data) .eos)

/-- server.js:268
`/(Skill|Skills|SKILL|SKILLS|Technical Skill|Technical Skills|TECHNICAL SKILL|TECHNICAL SKILLS|Qualifications|QUALIFICATIONS)\s*([\s\S]*?)(?=Projects|Education|$)/i`. -/
def skillsRE : RE :=
  .seq (.group 1 (altList (skillsVocab.map ciStr)))
    (.seq wsStar (.seq (.group 2 (.starL anyCharRE)) (.look skillsTermRE)))

/-- The education header vocabulary (server.js:237). -/
def eduVocab : List (List Char) :=
  ["Education".data, "Educations".data, "EDUCATION".data, "EDUCATIONS".data,
   "Academic Background".data, "ACADEMIC BACKGROUND".data]

/-- The lookahead terminators of the education fallback regex:
`(?=Skills|Projects|Qualifications|$)`. -/
def eduTermRE : RE :=
  .alt (ciStr "Skills".data) (.alt (ciStr "Projects".data)
    (.alt (ciStr "Qualifications".data) .eos))

/-- server.js:237
`/(Education|Educations|EDUCATION|EDUCATIONS|Academic Background|ACADEMIC BACKGROUND)\s*([\s\S]*?)(?=Skills|Projects|Qualifications|$)/i`. -/
def educationRE : RE :=
  .seq (.group 1 (altList (eduVocab.map ciStr)))
    (.seq wsStar (.seq (.group 2 (.starL anyCharRE)) (.look eduTermRE)))

/-- The projects header vocabulary (server.js:300). -/
def projVocab : List (List Char) :=
  ["Project".data, "Projects".data, "PROJECT".data, "PROJECTS".data,
   "Work Experience".data, "WORK EXPERIENCE".data]

/-- The lookahead terminators of the projects fallback regex:
`(?=Education|Skills|Qualifications|$)`. -/
def projTermRE : RE :=
  .alt (ciStr "Education".data) (.alt (ciStr "Skills".data)
    (.alt (ciStr "Qualifications".data) .eos))

/-- server.js:300
`/(Project|Projects|PROJECT|PROJECTS|Work Experience|WORK EXPERIENCE)\s*([\s\S]*?)(?=Education|Skills|Qualifications|$)/i`. -/
def projectsRE : RE :=
  .seq (.group 1 (altList (projVocab.map ciStr)))
    (.seq wsStar (.seq (.group 2 (.starL anyCharRE)) (.look projTermRE)))

/-- The `{name, email, phone}` record returned by `extractPersonalInfo`. -/
structure PersonalInfo where
  name : String
  email : String
  phone : String
deriving DecidableEq

/-- The lines of the text after `split('\n').map(trim).filter(length > 0)`
(server.js:179). -/
def trimmedLines (t : List Char) : List (List Char) :=
  ((splitNl t).map jsTrim).filter (fun l => l ≠ [])

/-- Name resolution of `extractPersonalInfo` (server.js:167-184).  `personTag`
is the external `nlp(text).match('#Person').out('text')` value; JS string
truthiness makes the empty string fall through to the first-line fallback. -/
def inferName (personTag : String) (t : List Char) : List Char :=
  match firstMatchAt nameRE t 0 with
  | some q => jsTrim (q.2.2.g2.getD [])
  | none =>
    if personTag ≠ "" then jsTrim personTag.data
    else (trimmedLines t).headD []

/-- Email resolution of `extractPersonalInfo` (server.js:186-197). -/
def inferEmail (t : List Char) : List Char :=
  match firstMatchAt emailRE t 0 with
  | some q => jsTrim (q.2.2.g2.getD [])
  | none =>
    match firstMatchAt emailFallbackRE t 0 with
    | some q => jsTrim q.2.1
    | none => []

/-- server.js:206 fallback `/(\+?\d{1,3}[-.\s]?)?\(?\d{3}\)?[-.\s]?\d{3}[-.\s]?\d{4}/i`. -/
def phoneFallbackRE : RE := phoneBody

/-- Phone resolution of `extractPersonalInfo` (server.js:199-210): on a
primary match, `match[0].replace(stripRegex, '').trim()`; otherwise the
unlabeled fallback's `match[0].trim()`; otherwise the empty string. -/
def inferPhone (t : List Char) : List Char :=
  match firstMatchAt phoneRE t 0 with
  | some q => jsTrim (removeFirst phoneStripRE q.2.1)
  | none =>
    match firstMatchAt phoneFallbackRE t 0 with
    | some q => jsTrim q.2.1
    | none => []

/-- server.js:155-213 `extractPersonalInfo(text)` for a string argument.
`personTag` stands for the external `compromise` person-entity output. -/
def extractPersonalInfo (personTag : String) (text : String) : PersonalInfo :=
  { name := strOfL (inferName personTag text.data)
    email := strOfL (inferEmail text.data)
    phone := strOfL (inferPhone text.data) }

/-- Tier-2 regex fallback shared by the three section extractors:
`match[2].trim().split('\n').map(trim).filter(length > 0)`. -/
def sectionFallback (re : RE) (t : List Char) : Option (List String) :=
  match firstMatchAt re t 0 with
  | some q =>
    some (((((splitNl (jsTrim (q.2.2.g2.getD []))).map jsTrim).filter
      (fun l => l ≠ []))).map strOfL)
  | none => none

/-- server.js:217-245 `extractEducation(text)` for a string argument.
`tier1` is the concatenation of the two external `compromise` match lists
(`doc.match('#Education')` and the header-vocabulary match). -/
def extractEducation (tier1 : List String) (text : String) : List String :=
  let uniq := dedupFirst tier1
  if uniq.length = 0 then
    match sectionFallback educationRE text.data with
    | some r => r
    | none => uniq
  else uniq

/-- server.js:248-276 `extractSkills(text)` for a string argument. -/
def extractSkills (tier1 : List String) (text : String) : List String :=
  let uniq := dedupFirst tier1
  if uniq.length = 0 then
    match sectionFallback skillsRE text.data with
    | some r => r
    | none => uniq
  else uniq

/-- server.js:280-308 `extractProjects(text)` for a string argument. -/
def extractProjects (tier1 : List String) (text : String) : List String :=
  let uniq := dedupFirst tier1
  if uniq.length = 0 then
    match sectionFallback projectsRE text.data with
    | some r => r
    | none => uniq
  else uniq

/-- The JavaScript values the spec's edge cases name as possible non-text
arguments to the inference functions. -/
inductive JSValue where
  | str (s : String)
  | num (n : Int)
  | null
  | undef
  | emptyObj
deriving DecidableEq

/-- `JSON.stringify` on those values.  `JSON.stringify(undefined)` is
`undefined`, not a string — there is no JSON representation, hence `none`. -/
def jsonStringifyV : JSValue → Option String
  | .str s => some ("\"" ++ s ++ "\"")
  | .num n => some (toString n)
  | .null => some "null"
  | .undef => none
  | .emptyObj => some "\x7b\x7d"

/-- The guard at the top of every inference function:
`if (typeof text !== 'string') text = JSON.stringify(text)`.
A string passes through unchanged; any other value is replaced by its
`JSON.stringify` image; for `undefined` that image is again not a string
(`none`), and the subsequent `text.match(…)` calls throw a `TypeError` —
modelled as `none` propagating. -/
def coerceText : JSValue → Option String
  | .str s => some s
  | v => jsonStringifyV v

/-- `extractPersonalInfo` on an arbitrary JS value; `none` models the
uncaught `TypeError` thrown when the coercion fails to produce a string. -/
def extractPersonalInfoJS (personTag : String) (v : JSValue) : Option PersonalInfo :=
  (coerceText v).map (extractPersonalInfo personTag)

/-- `extractEducation` on an arbitrary JS value. -/
def extractEducationJS (tier1 : List String) (v : JSValue) : Option (List String) :=
  (coerceText v).map (extractEducation tier1)

/-- `extractSkills` on an arbitrary JS value. -/
def extractSkillsJS (tier1 : List String) (v : JSValue) : Option (List String) :=
  (coerceText v).map (extractSkills tier1)

/-- `extractProjects` on an arbitrary JS value. -/
def extractProjectsJS (tier1 : List String) (v : JSValue) : Option (List String) :=
  (coerceText v).map (extractProjects tier1)

/-- Outcome of handing a byte buffer to an external document parser
(`pdf-parse` or `mammoth`): either extracted text, or a thrown parse error. -/
inductive ParseOutcome where
  | ok (text : String)
  | fail
deriving DecidableEq

/-- server.js:67-76 `extractTextFromPDF`: the `pdf(buffer)` call inside a
`try`, `catch` returning `''`.  (Defined in the file but not called by the
`/submit` route.) -/
def extractTextFromPDF : ParseOutcome → String
  | .ok t => t
  | .fail => ""

/-- server.js:79-87 `extractTextFromDOCX`: the `mammoth.extractRawText` call
inside a `try`, `catch` returning `''`.  (Defined in the file but not called
by the `/submit` route.) -/
def extractTextFromDOCX : ParseOutcome → String
  | .ok t => t
  | .fail => ""

/-- The two ways the `/submit` handler's `try` block can throw before any
field inference runs: the explicit `throw new Error('Unsupported file
format…')`, and an error propagating out of the inline `await pdf(...)` /
`await mammoth.extractRawText(...)` calls. -/
inductive SubmitError where
  | unsupportedFormat
  | parseFailure
deriving DecidableEq

/-- Result of the `/submit` handler: the success JSON (carrying the row
appended to the sheet), or the `catch` branch's
`res.status(500).json({message: 'Error processing application.'})`. -/
inductive SubmitOutcome where
  | success (row : List String)
  | serverError (e : SubmitError)
deriving DecidableEq

/-- server.js:355 `file.originalname.split('.').pop()` — the suffix after the
final `.` (the whole name when there is no dot); not lower-cased. -/
def getExtension (originalname : String) : String :=
  strOfL ((splitOnChar '.' originalname.data).getLastD [])

/-- JS `a || b` on strings: the empty string is falsy. -/
def jsOr (a b : String) : String := if a = "" then b else a

/-- Everything the `/submit` handler consumes, with external collaborators
(parsers, NLP tagger, S3) represented by their outputs. -/
structure SubmitInput where
  originalname : String
  pdfParse : ParseOutcome
  docxParse : ParseOutcome
  personTag : String
  eduTags : List String
  skillTags : List String
  projTags : List String
  publicUrl : String
  formName : String
  formEmail : String
  formPhone : String

/-- server.js:348-404, the `/submit` route.  The text-extraction step calls
the parsers inline (not the guarded `extractTextFromPDF`/`extractTextFromDOCX`
helpers), so a parser error or an unsupported extension is thrown to the
outer `catch`, which answers HTTP 500; otherwise field inference runs and the
Google-Sheets row is assembled with form values as fallbacks. -/
def submitRoute (inp : SubmitInput) : SubmitOutcome :=
  let ext := getExtension inp.originalname
  let textE : Except SubmitError String :=
    if ext = "pdf" then
      match inp.pdfParse with
      | .ok t => .ok t
      | .fail => .error .parseFailure
    else if ext = "docx" then
      match inp.docxParse with
      | .ok t => .ok t
      | .fail => .error .parseFailure
    else .error .unsupportedFormat
  match textE with
  | .error e => .serverError e
  | .ok text =>
    let personalInfo := extractPersonalInfo inp.personTag text
    let education := extractEducation inp.eduTags text
    let skills := extractSkills inp.skillTags text
    let projects := extractProjects inp.projTags text
    .success
      [jsOr personalInfo.name inp.formName,
       jsOr personalInfo.email inp.formEmail,
       jsOr personalInfo.phone inp.formPhone,
       inp.publicUrl,
       String.intercalate "\n" education,
       String.intercalate "\n" skills,
       String.intercalate "\n" projects]

/-- Modelled from the spec: "a capitalized-word-sequence pattern — each word
starts with an uppercase letter followed by lowercase letters, at least two
such words in a row" — the case-sensitive reading of
`[A-Z][a-z]+(?:\s+[A-Z][a-z]+)+`, used to state claims that speak of
capitalized sequences. -/
def specCapWord : RE :=
  .seq (.cls (fun c => 65 ≤ c.toNat && c.toNat ≤ 90))
    (plusG (.cls (fun c => 97 ≤ c.toNat && c.toNat ≤ 122)))

/-- Modelled from the spec: a sequence of at least two capitalized words. -/
def specCapSeqRE : RE := .seq specCapWord (plusG (.seq wsPlus specCapWord))

/-- Modelled from the spec: "the first non-empty line of the document,
trimmed" (empty when every line trims to nothing). -/
def specFirstNonEmptyLine (t : List Char) : List Char :=
  (((splitNl t).map jsTrim).filter (fun l => l ≠ [])).headD []

/-- Nullability: `nullable re = true` guarantees `re` can match the empty
string at any position (a sound under-approximation: groups and lookaheads
are not counted as nullable). -/
def nullable : RE → Bool
  | .eps => true
  | .cls _ => false
  | .seq a b => nullable a && nullable b
  | .alt a b => nullable a || nullable b
  | .starG _ => true
  | .starL _ => true
  | .look _ => false
  | .eos => false
  | .group _ _ => false

/-- Every character any class of `re` accepts satisfies `P` (lookaheads are
exempt: they consume nothing). -/
def allCls (P : Char → Bool) : RE → Prop
  | .eps => True
  | .cls q => ∀ c, q c = true → P c = true
  | .seq a b => allCls P a ∧ allCls P b
  | .alt a b => allCls P a ∧ allCls P b
  | .starG r => allCls P r
  | .starL r => allCls P r
  | .look _ => True
  | .eos => True
  | .group _ r => allCls P r

/-- `re` contains no capture group numbered 1 (lookaheads' inner captures are
still counted, since lookahead results keep captures). -/
def g1Free : RE → Bool
  | .eps => true
  | .cls _ => true
  | .seq a b => g1Free a && g1Free b
  | .alt a b => g1Free a && g1Free b
  | .starG r => g1Free r
  | .starL r => g1Free r
  | .look r => g1Free r
  | .eos => true
  | .group i r => !(i == 1) && g1Free r

/-- Case-insensitive prefix test: `w` is a prefix of `s` up to ASCII case. -/
def ciPrefixOf : List Char → List Char → Bool
  | [], _ => true
  | _ :: _, [] => false
  | w :: ws, s :: ss => ciEqChar s w && ciPrefixOf ws ss

/-- Case-insensitive list equality. -/
def ciListEq (a b : List Char) : Bool := ciPrefixOf a b && a.length = b.length

/-! ## Basic matcher lemmas -/

/-- The empty iteration is always among the greedy-star results. -/
theorem mem_MstarG_self (f : List Char → Caps → List (List Char × Caps)) :
    ∀ n s c, (s, c) ∈ MstarG f n s c := by
  intro n s c
  cases n with
  | zero => simp [MstarG]
  | succ n => exact List.mem_append_right _ (List.mem_singleton.mpr rfl)

/-- The empty iteration is always among the lazy-star results. -/
theorem mem_MstarL_self (f : List Char → Caps → List (List Char × Caps)) :
    ∀ n s c, (s, c) ∈ MstarL f n s c := by
  intro n s c
  cases n with
  | zero => simp [MstarL]
  | succ n => exact List.mem_cons_self _ _

/-- A nullable regex always has the empty match among its results, with
captures untouched. -/
theorem nullable_mem : ∀ re : RE, nullable re = true → ∀ s c, (s, c) ∈ M re s c := by
  intro re
  induction re with
  | eps => intro _ s c; simp [M]
  | cls p => intro h; simp [nullable] at h
  | seq a b iha ihb =>
    intro h s c
    simp only [nullable, Bool.and_eq_true] at h
    simp only [M, List.mem_flatMap]
    exact ⟨(s, c), iha h.1 s c, ihb h.2 s c⟩
  | alt a b iha ihb =>
    intro h s c
    simp only [nullable, Bool.or_eq_true] at h
    simp only [M, List.mem_append]
    rcases h with h | h
    · exact Or.inl (iha h s c)
    · exact Or.inr (ihb h s c)
  | starG r ih => intro _ s c; simp only [M]; exact mem_MstarG_self _ _ s c
  | starL r ih => intro _ s c; simp only [M]; exact mem_MstarL_self _ _ s c
  | look r ih => intro h; simp [nullable] at h
  | eos => intro h; simp [nullable] at h
  | group i r ih => intro h; simp [nullable] at h

/-- If the prefix of a concatenation is nullable and the concatenation has no
match, the suffix has no match either. -/
theorem M_seq_nullable_empty {a b : RE} (ha : nullable a = true) {s : List Char} {c : Caps}
    (h : M (.seq a b) s c = []) : M b s c = [] := by
  rw [List.eq_nil_iff_forall_not_mem]
  intro q hq
  have : q ∈ M (.seq a b) s c := by
    simp only [M, List.mem_flatMap]
    exact ⟨(s, c), nullable_mem a ha s c, hq⟩
  rw [h] at this
  exact absurd this (List.not_mem_nil q)

/-- A capture group matches exactly when its body does. -/
theorem M_group_eq_nil {i : Nat} {r : RE} {s : List Char} {c : Caps} :
    M (.group i r) s c = [] ↔ M r s c = [] := by
  simp [M]

/-- If there is no match anywhere from some position, there is none on any
suffix. -/
theorem firstMatchAt_none_drop {re : RE} :
    ∀ s pos, firstMatchAt re s pos = none → ∀ k, M re (s.drop k) {} = [] := by
  intro s
  induction s with
  | nil =>
    intro pos h k
    simp only [List.drop_nil]
    cases hh : (M re ([] : List Char) {}).head? with
    | none => exact List.head?_eq_none_iff.mp hh
    | some q => simp [firstMatchAt, hh] at h
  | cons x xs ih =>
    intro pos h k
    cases hh : (M re (x :: xs) {}).head? with
    | some q => simp [firstMatchAt, hh] at h
    | none =>
      simp only [firstMatchAt, hh] at h
      cases k with
      | zero => exact List.head?_eq_none_iff.mp hh
      | succ k => exact ih (pos + 1) h k

/-- Conversely, if no suffix matches, the scan finds nothing. -/
theorem firstMatchAt_none_of_drop {re : RE} :
    ∀ s pos, (∀ k, M re (s.drop k) {} = []) → firstMatchAt re s pos = none := by
  intro s
  induction s with
  | nil =>
    intro pos h
    have h0 := h 0
    simp only [List.drop_nil] at h0
    simp [firstMatchAt, h0]
  | cons x xs ih =>
    intro pos h
    have h0 := h 0
    simp only [List.drop] at h0
    have hh : (M re (x :: xs) {}).head? = none := by simp [h0]
    simp only [firstMatchAt, hh]
    exact ih (pos + 1) (fun k => h (k + 1))

/-- A successful scan yields a genuine match of a suffix: the reported capture
groups and `match[0]` come from the head of the backtracking list at some
suffix of the text. -/
theorem firstMatchAt_some {re : RE} :
    ∀ s pos p m0 caps, firstMatchAt re s pos = some (p, m0, caps) →
      ∃ j q, (M re (s.drop j) {}).head? = some q ∧ caps = q.2 ∧
        m0 = (s.drop j).take ((s.drop j).length - q.1.length) := by
  intro s
  induction s with
  | nil =>
    intro pos p m0 caps h
    cases hh : (M re ([] : List Char) {}).head? with
    | none => simp [firstMatchAt, hh] at h
    | some q =>
      simp only [firstMatchAt, hh, Option.some.injEq] at h
      refine ⟨0, q, hh, ?_, ?_⟩
      · exact (congrArg (fun z => z.2.2) h).symm
      · have hm : m0 = [] := (congrArg (fun z => z.2.1) h).symm
        simp [hm]
  | cons x xs ih =>
    intro pos p m0 caps h
    cases hh : (M re (x :: xs) {}).head? with
    | some q =>
      simp only [firstMatchAt, hh, Option.some.injEq] at h
      refine ⟨0, q, by simpa using hh, ?_, ?_⟩
      · exact (congrArg (fun z => z.2.2) h).symm
      · have hm : m0 = (x :: xs).take ((x :: xs).length - q.1.length) :=
          (congrArg (fun z => z.2.1) h).symm
        simpa using hm
    | none =>
      simp only [firstMatchAt, hh] at h
      obtain ⟨j, q, hq, hc, hm⟩ := ih (pos + 1) p m0 caps h
      exact ⟨j + 1, q, by simpa using hq, hc, by simpa using hm⟩

/-! ## Consumption soundness: a match only consumes characters its character
classes accept, and the remaining suffix really is a suffix. -/

/-- Star auxiliary for `M_consumed`. -/
theorem MstarG_consumed {P : Char → Bool} {f : List Char → Caps → List (List Char × Caps)}
    (hf : ∀ s c q, q ∈ f s c → ∃ t, s = t ++ q.1 ∧ ∀ ch ∈ t, P ch = true) :
    ∀ n s c q, q ∈ MstarG f n s c → ∃ t, s = t ++ q.1 ∧ ∀ ch ∈ t, P ch = true := by
  intro n
  induction n with
  | zero =>
    intro s c q hq
    simp only [MstarG, List.mem_singleton] at hq
    exact ⟨[], by simp [hq], by simp⟩
  | succ n ih =>
    intro s c q hq
    simp only [MstarG, List.mem_append, List.mem_singleton] at hq
    rcases hq with hq | hq
    · rw [List.mem_flatMap] at hq
      obtain ⟨q1, hq1, hrec⟩ := hq
      have hq1' : q1 ∈ f s c := (List.mem_filter.mp hq1).1
      obtain ⟨t1, ht1, hp1⟩ := hf s c q1 hq1'
      obtain ⟨t2, ht2, hp2⟩ := ih q1.1 q1.2 q hrec
      refine ⟨t1 ++ t2, by rw [ht1, ht2, List.append_assoc], ?_⟩
      intro ch hch
      rcases List.mem_append.mp hch with h | h
      · exact hp1 ch h
      · exact hp2 ch h
    · exact ⟨[], by simp [hq], by simp⟩

/-- Star auxiliary for `M_consumed` (lazy version). -/
theorem MstarL_consumed {P : Char → Bool} {f : List Char → Caps → List (List Char × Caps)}
    (hf : ∀ s c q, q ∈ f s c → ∃ t, s = t ++ q.1 ∧ ∀ ch ∈ t, P ch = true) :
    ∀ n s c q, q ∈ MstarL f n s c → ∃ t, s = t ++ q.1 ∧ ∀ ch ∈ t, P ch = true := by
  intro n
  induction n with
  | zero =>
    intro s c q hq
    simp only [MstarL, List.mem_singleton] at hq
    exact ⟨[], by simp [hq], by simp⟩
  | succ n ih =>
    intro s c q hq
    simp only [MstarL, List.mem_cons] at hq
    rcases hq with hq | hq
    · exact ⟨[], by simp [hq], by simp⟩
    · rw [List.mem_flatMap] at hq
      obtain ⟨q1, hq1, hrec⟩ := hq
      have hq1' : q1 ∈ f s c := (List.mem_filter.mp hq1).1
      obtain ⟨t1, ht1, hp1⟩ := hf s c q1 hq1'
      obtain ⟨t2, ht2, hp2⟩ := ih q1.1 q1.2 q hrec
      refine ⟨t1 ++ t2, by rw [ht1, ht2, List.append_assoc], ?_⟩
      intro ch hch
      rcases List.mem_append.mp hch with h | h
      · exact hp1 ch h
      · exact hp2 ch h

/-- Consumption soundness: when every class of `re` only accepts characters
satisfying `P`, every match result is a suffix of the input and the consumed
prefix consists of `P`-characters. -/
theorem M_consumed {P : Char → Bool} :
    ∀ re : RE, allCls P re → ∀ s c q, q ∈ M re s c →
      ∃ t, s = t ++ q.1 ∧ ∀ ch ∈ t, P ch = true := by
  intro re
  induction re with
  | eps =>
    intro _ s c q hq
    simp only [M, List.mem_singleton] at hq
    exact ⟨[], by simp [hq], by simp⟩
  | cls p =>
    intro hcl s c q hq
    cases s with
    | nil => simp [M] at hq
    | cons x xs =>
      simp only [M] at hq
      by_cases hx : p x = true
      · simp only [hx, if_true, List.mem_singleton] at hq
        exact ⟨[x], by simp [hq], by simpa using hcl x hx⟩
      · simp [hx] at hq
  | seq a b iha ihb =>
    intro hcl s c q hq
    simp only [M, List.mem_flatMap] at hq
    obtain ⟨q1, hq1, hq2⟩ := hq
    obtain ⟨t1, ht1, hp1⟩ := iha hcl.1 s c q1 hq1
    obtain ⟨t2, ht2, hp2⟩ := ihb hcl.2 q1.1 q1.2 q hq2
    refine ⟨t1 ++ t2, by rw [ht1, ht2, List.append_assoc], ?_⟩
    intro ch hch
    rcases List.mem_append.mp hch with h | h
    · exact hp1 ch h
    · exact hp2 ch h
  | alt a b iha ihb =>
    intro hcl s c q hq
    simp only [M, List.mem_append] at hq
    rcases hq with hq | hq
    · exact iha hcl.1 s c q hq
    · exact ihb hcl.2 s c q hq
  | starG r ih =>
    intro hcl s c q hq
    simp only [M] at hq
    exact MstarG_consumed (ih hcl) s.length s c q hq
  | starL r ih =>
    intro hcl s c q hq
    simp only [M] at hq
    exact MstarL_consumed (ih hcl) s.length s c q hq
  | look r ih =>
    intro _ s c q hq
    simp only [M] at hq
    cases hM : M r s c with
    | nil => rw [hM] at hq; simp at hq
    | cons a l =>
      rw [hM] at hq
      simp only [List.mem_singleton] at hq
      exact ⟨[], by simp [hq], by simp⟩
  | eos =>
    intro _ s c q hq
    simp only [M] at hq
    by_cases hs : s.isEmpty
    · simp only [hs, if_true, List.mem_singleton] at hq
      exact ⟨[], by simp [hq], by simp⟩
    · simp [hs] at hq
  | group i r ih =>
    intro hcl s c q hq
    simp only [M, List.mem_map] at hq
    obtain ⟨q0, hq0, hqe⟩ := hq
    obtain ⟨t, ht, hp⟩ := ih hcl s c q0 hq0
    exact ⟨t, by rw [← hqe] at *; exact ht, hp⟩

/-! ## Capture group 1 preservation -/

/-- Setting a group other than 1 leaves group 1 unchanged. -/
theorem setCap_g1 {c : Caps} {i : Nat} {v : List Char} (h : i ≠ 1) :
    (setCap c i v).g1 = c.g1 := by
  simp only [setCap, if_neg h]
  by_cases h2 : i = 2
  · simp [h2]
  · simp [h2]

/-- Star auxiliary for `M_g1`. -/
theorem MstarG_g1 {f : List Char → Caps → List (List Char × Caps)}
    (hf : ∀ s c q, q ∈ f s c → q.2.g1 = c.g1) :
    ∀ n s c q, q ∈ MstarG f n s c → q.2.g1 = c.g1 := by
  intro n
  induction n with
  | zero =>
    intro s c q hq
    simp only [MstarG, List.mem_singleton] at hq
    simp [hq]
  | succ n ih =>
    intro s c q hq
    simp only [MstarG, List.mem_append, List.mem_singleton] at hq
    rcases hq with hq | hq
    · rw [List.mem_flatMap] at hq
      obtain ⟨q1, hq1, hrec⟩ := hq
      have hq1' : q1 ∈ f s c := (List.mem_filter.mp hq1).1
      rw [ih q1.1 q1.2 q hrec, hf s c q1 hq1']
    · simp [hq]

/-- Star auxiliary for `M_g1` (lazy version). -/
theorem MstarL_g1 {f : List Char → Caps → List (List Char × Caps)}
    (hf : ∀ s c q, q ∈ f s c → q.2.g1 = c.g1) :
    ∀ n s c q, q ∈ MstarL f n s c → q.2.g1 = c.g1 := by
  intro n
  induction n with
  | zero =>
    intro s c q hq
    simp only [MstarL, List.mem_singleton] at hq
    simp [hq]
  | succ n ih =>
    intro s c q hq
    simp only [MstarL, List.mem_cons] at hq
    rcases hq with hq | hq
    · simp [hq]
    · rw [List.mem_flatMap] at hq
      obtain ⟨q1, hq1, hrec⟩ := hq
      have hq1' : q1 ∈ f s c := (List.mem_filter.mp hq1).1
      rw [ih q1.1 q1.2 q hrec, hf s c q1 hq1']

/-- A regex without a group numbered 1 cannot change capture group 1. -/
theorem M_g1 : ∀ re : RE, g1Free re = true → ∀ s c q, q ∈ M re s c → q.2.g1 = c.g1 := by
  intro re
  induction re with
  | eps =>
    intro _ s c q hq
    simp only [M, List.mem_singleton] at hq
    simp [hq]
  | cls p =>
    intro _ s c q hq
    cases s with
    | nil => simp [M] at hq
    | cons x xs =>
      simp only [M] at hq
      by_cases hx : p x = true
      · simp only [hx, if_true, List.mem_singleton] at hq
        simp [hq]
      · simp [hx] at hq
  | seq a b iha ihb =>
    intro hg s c q hq
    simp only [g1Free, Bool.and_eq_true] at hg
    obtain ⟨hga, hgb⟩ := hg
    simp only [M, List.mem_flatMap] at hq
    obtain ⟨q1, hq1, hq2⟩ := hq
    rw [ihb hgb q1.1 q1.2 q hq2, iha hga s c q1 hq1]
  | alt a b iha ihb =>
    intro hg s c q hq
    simp only [g1Free, Bool.and_eq_true] at hg
    obtain ⟨hga, hgb⟩ := hg
    simp only [M, List.mem_append] at hq
    rcases hq with hq | hq
    · exact iha hga s c q hq
    · exact ihb hgb s c q hq
  | starG r ih =>
    intro hg s c q hq
    simp only [M] at hq
    exact MstarG_g1 (ih hg) s.length s c q hq
  | starL r ih =>
    intro hg s c q hq
    simp only [M] at hq
    exact MstarL_g1 (ih hg) s.length s c q hq
  | look r ih =>
    intro hg s c q hq
    simp only [M] at hq
    cases hM : M r s c with
    | nil => rw [hM] at hq; simp at hq
    | cons a l =>
      rw [hM] at hq
      simp only [List.mem_singleton] at hq
      have : a ∈ M r s c := by rw [hM]; exact List.mem_cons_self a l
      have := ih hg s c a this
      simp [hq, this]
  | eos =>
    intro _ s c q hq
    simp only [M] at hq
    by_cases hs : s.isEmpty
    · simp only [hs, if_true, List.mem_singleton] at hq
      simp [hq]
    · simp [hs] at hq
  | group i r ih =>
    intro hg s c q hq
    simp only [g1Free, Bool.and_eq_true, Bool.not_eq_true'] at hg
    obtain ⟨hgi, _⟩ := hg
    simp only [M, List.mem_map] at hq
    obtain ⟨q0, hq0, hqe⟩ := hq
    rw [← hqe]
    exact setCap_g1 (by simpa using hgi)

/-! ## Case-insensitive literals and ordered alternation lists -/

/-- A case-insensitive literal matches deterministically: it consumes its own
length when it is a case-insensitive prefix of the input, and fails
otherwise. -/
theorem M_ciStr_eq : ∀ w s c, M (ciStr w) s c =
    if ciPrefixOf w s = true then [(s.drop w.length, c)] else [] := by
  intro w
  induction w with
  | nil =>
    intro s c
    simp [ciStr, M, ciPrefixOf]
  | cons w0 ws ih =>
    intro s c
    cases s with
    | nil => simp [ciStr, M, ciPrefixOf]
    | cons x xs =>
      simp only [ciStr, M, ciPrefixOf]
      by_cases hx : ciEqChar x w0 = true
      · simp only [hx, if_true, Bool.true_and, List.flatMap_cons, List.flatMap_nil,
          List.append_nil, ih]
        by_cases hp : ciPrefixOf ws xs = true
        · simp [hp, List.length_cons]
        · simp [hp]
      · simp only [hx, if_false]
        simp only [Bool.not_eq_true] at hx
        simp [hx, List.flatMap_nil]

/-- Alternation lists: cons case. -/
theorem M_altList_cons (r : RE) (rs : List RE) (s : List Char) (c : Caps) :
    M (altList (r :: rs)) s c = M r s c ++ M (altList rs) s c := by
  simp [altList, M]

/-- Alternation lists: the empty list never matches. -/
theorem M_altList_nil (s : List Char) (c : Caps) : M (altList []) s c = [] := by
  cases s <;> simp [altList, M]

/-! ## Arithmetic of case-insensitive prefixes -/

/-- Case-insensitive comparison is reflexive. -/
theorem ciEqChar_self (x : Char) : ciEqChar x x = true := by
  simp [ciEqChar]

/-- Characters equal up to case compare equally against any third character. -/
theorem ciEqChar_congr {a b : Char} (h : ciEqChar a b = true) (z : Char) :
    ciEqChar a z = ciEqChar b z := by
  simp only [ciEqChar, decide_eq_true_eq] at h
  simp [ciEqChar, h]

/-- A case-insensitive prefix is no longer than the string. -/
theorem ciPrefixOf_length_le : ∀ w s : List Char, ciPrefixOf w s = true → w.length ≤ s.length := by
  intro w
  induction w with
  | nil => intro s _; simp
  | cons w0 ws ih =>
    intro s h
    cases s with
    | nil => simp [ciPrefixOf] at h
    | cons x xs =>
      simp only [ciPrefixOf, Bool.and_eq_true] at h
      simpa using ih xs h.2

/-- A case-insensitive prefix is case-insensitively equal to the
corresponding take. -/
theorem ciListEq_take : ∀ w s : List Char, ciPrefixOf w s = true →
    ciListEq w (s.take w.length) = true := by
  intro w
  induction w with
  | nil => intro s _; simp [ciListEq, ciPrefixOf]
  | cons w0 ws ih =>
    intro s h
    have hle := ciPrefixOf_length_le _ _ h
    cases s with
    | nil => simp [ciPrefixOf] at h
    | cons x xs =>
      simp only [ciPrefixOf, Bool.and_eq_true] at h
      have := ih xs h.2
      simp only [ciListEq, Bool.and_eq_true, decide_eq_true_eq] at this ⊢
      refine ⟨?_, ?_⟩
      · simp only [List.length_cons, List.take_succ_cons, ciPrefixOf, Bool.and_eq_true]
        exact ⟨h.1, this.1⟩
      · rw [List.length_take]
        simp only [List.length_cons] at hle ⊢
        omega

/-- Components of case-insensitive equality. -/
theorem ciListEq_parts {w L : List Char} (h : ciListEq w L = true) :
    ciPrefixOf w L = true ∧ L.length = w.length := by
  simp only [ciListEq, Bool.and_eq_true, decide_eq_true_eq] at h
  exact ⟨h.1, h.2.symm⟩

/-- Testing a prefix against a string case-insensitively only depends on the
string up to case: if `w` and `L` are equal up to case, any pattern reads the
same from `L ++ r` as from `w ++ r`. -/
theorem ciPrefixOf_congr : ∀ (v w L r : List Char), ciListEq w L = true →
    ciPrefixOf v (L ++ r) = ciPrefixOf v (w ++ r) := by
  intro v
  induction v with
  | nil => intro w L r _; simp [ciPrefixOf]
  | cons v0 vs ih =>
    intro w L r h
    cases w with
    | nil =>
      cases L with
      | nil => rfl
      | cons y ys => simp [ciListEq] at h
    | cons x xs =>
      cases L with
      | nil => simp [ciListEq, ciPrefixOf] at h
      | cons y ys =>
        simp only [ciListEq, ciPrefixOf, Bool.and_eq_true, decide_eq_true_eq,
          List.length_cons] at h
        obtain ⟨⟨hxy, hpre⟩, hlen⟩ := h
        have hlq : ciListEq xs ys = true := by
          simp only [ciListEq, Bool.and_eq_true, decide_eq_true_eq]
          exact ⟨hpre, by omega⟩
        simp only [List.cons_append, ciPrefixOf, List.append_eq]
        rw [ciEqChar_congr hxy v0, ih xs ys r hlq]

/-- Reading a pattern `w ++ v` against `w ++ r` case-insensitively reduces to
reading `v` against `r`. -/
theorem ciPrefixOf_append_cancel : ∀ (w v r : List Char),
    ciPrefixOf (w ++ v) (w ++ r) = ciPrefixOf v r := by
  intro w
  induction w with
  | nil => intro v r; rfl
  | cons x xs ih =>
    intro v r
    simp only [List.cons_append, ciPrefixOf, ciEqChar_self, Bool.true_and]
    exact ih v r

/-- A non-letter never compares equal (up to case) to an ASCII letter. -/
theorem ciEqChar_letter_false {c d : Char} (hd : isAsciiLetter d = true)
    (hc : isAsciiLetter c = false) : ciEqChar c d = false := by
  simp only [isAsciiLetter, Bool.or_eq_true, Bool.and_eq_true, decide_eq_true_eq,
    Bool.or_eq_false_iff, Bool.and_eq_false_iff, decide_eq_false_iff_not] at hd hc
  simp only [ciEqChar, lowerCode, decide_eq_false_iff_not]
  intro h
  split_ifs at h <;> omega

/-! ## Trimming and splitting -/

/-- Trimming only removes characters. -/
theorem mem_jsTrim {ch : Char} {l : List Char} (h : ch ∈ jsTrim l) : ch ∈ l := by
  simp only [jsTrim, List.mem_reverse] at h
  have h1 := (List.dropWhile_sublist isJsWs).mem h
  rw [List.mem_reverse] at h1
  exact (List.dropWhile_sublist isJsWs).mem h1

/-! ## Deduplication -/

/-- Membership in the accumulator-based deduplication. -/
theorem mem_dedupAux : ∀ (l seen : List String) (x : String),
    x ∈ dedupAux seen l ↔ x ∈ l ∧ x ∉ seen := by
  intro l
  induction l with
  | nil => intro seen x; simp [dedupAux]
  | cons a t ih =>
    intro seen x
    simp only [dedupAux]
    by_cases ha : a ∈ seen
    · rw [if_pos ha, ih]
      constructor
      · rintro ⟨hx, hs⟩
        exact ⟨List.mem_cons_of_mem a hx, hs⟩
      · rintro ⟨hx, hs⟩
        rcases List.mem_cons.mp hx with rfl | hx
        · exact absurd ha hs
        · exact ⟨hx, hs⟩
    · rw [if_neg ha]
      simp only [List.mem_cons, ih, List.mem_cons]
      constructor
      · rintro (rfl | ⟨hx, hs⟩)
        · exact ⟨Or.inl rfl, ha⟩
        · exact ⟨Or.inr hx, fun hmem => hs (Or.inr hmem)⟩
      · rintro ⟨rfl | hx, hs⟩
        · exact Or.inl rfl
        · by_cases hxa : x = a
          · exact Or.inl hxa
          · exact Or.inr ⟨hx, fun hmem => by
              rcases hmem with h | h
              · exact hxa h
              · exact hs h⟩

/-- The deduplicated list has no duplicates. -/
theorem dedupAux_nodup : ∀ (l seen : List String), (dedupAux seen l).Nodup := by
  intro l
  induction l with
  | nil => intro seen; simp [dedupAux]
  | cons a t ih =>
    intro seen
    simp only [dedupAux]
    by_cases ha : a ∈ seen
    · rw [if_pos ha]; exact ih seen
    · rw [if_neg ha]
      refine List.nodup_cons.mpr ⟨?_, ih (a :: seen)⟩
      intro hmem
      exact ((mem_dedupAux t (a :: seen) a).mp hmem).2 (List.mem_cons_self a seen)

/-- The deduplicated list is ordered by first occurrence in the original. -/
theorem dedupAux_pairwise : ∀ (l seen : List String),
    (dedupAux seen l).Pairwise (fun a b => l.indexOf a < l.indexOf b) := by
  intro l
  induction l with
  | nil => intro seen; simp [dedupAux]
  | cons x t ih =>
    intro seen
    simp only [dedupAux]
    by_cases hx : x ∈ seen
    · rw [if_pos hx]
      refine (ih seen).imp_of_mem ?_
      intro a b ha hb hab
      have ha' := (mem_dedupAux t seen a).mp ha
      have hb' := (mem_dedupAux t seen b).mp hb
      have hax : x ≠ a := fun h => ha'.2 (h ▸ hx)
      have hbx : x ≠ b := fun h => hb'.2 (h ▸ hx)
      rw [List.indexOf_cons_ne t hax, List.indexOf_cons_ne t hbx]
      omega
    · rw [if_neg hx]
      refine List.pairwise_cons.mpr ⟨?_, ?_⟩
      · intro b hb
        have hb' := (mem_dedupAux t (x :: seen) b).mp hb
        have hbx : x ≠ b := fun h => hb'.2 (h ▸ List.mem_cons_self x seen)
        rw [List.indexOf_cons_self, List.indexOf_cons_ne t hbx]
        omega
      · refine (ih (x :: seen)).imp_of_mem ?_
        intro a b ha hb hab
        have ha' := (mem_dedupAux t (x :: seen) a).mp ha
        have hb' := (mem_dedupAux t (x :: seen) b).mp hb
        have hax : x ≠ a := fun h => ha'.2 (h ▸ List.mem_cons_self x seen)
        have hbx : x ≠ b := fun h => hb'.2 (h ▸ List.mem_cons_self x seen)
        rw [List.indexOf_cons_ne t hax, List.indexOf_cons_ne t hbx]
        omega

/-! ## Character-class facts for the phone regexes -/

/-- Whitespace is not a letter. -/
theorem isJsWs_not_letter {c : Char} (h : isJsWs c = true) : isAsciiLetter c = false := by
  simp only [isJsWs, Bool.or_eq_true, decide_eq_true_eq] at h
  simp only [isAsciiLetter, Bool.or_eq_false_iff, Bool.and_eq_false_iff,
    decide_eq_false_iff_not]
  omega

/-- A digit is not a letter. -/
theorem isDigitC_not_letter {c : Char} (h : isDigitC c = true) : isAsciiLetter c = false := by
  simp only [isDigitC, Bool.and_eq_true, decide_eq_true_eq] at h
  simp only [isAsciiLetter, Bool.or_eq_false_iff, Bool.and_eq_false_iff,
    decide_eq_false_iff_not]
  omega

/-- The classes of `\s*[:\-]?\s*` (the separator part shared by the phone
regex and the strip regex) accept no letters. -/
theorem allCls_seps_tail :
    allCls (fun c => !(isAsciiLetter c)) (.seq wsStar (.seq colonDash wsStar)) := by
  refine ⟨?_, ?_, ?_⟩
  · intro c h
    simp [isJsWs_not_letter h]
  · refine ⟨?_, trivial⟩
    intro c h
    simp only [Bool.or_eq_true, decide_eq_true_eq] at h
    rcases h with h | h <;> subst h <;> decide
  · intro c h
    simp [isJsWs_not_letter h]

/-- The classes of `[:\-]?\s*` (the strip regex's tail) accept no letters. -/
theorem allCls_colon_ws :
    allCls (fun c => !(isAsciiLetter c)) (.seq colonDash wsStar) := by
  refine ⟨⟨?_, trivial⟩, ?_⟩
  · intro c h
    simp only [Bool.or_eq_true, decide_eq_true_eq] at h
    rcases h with h | h <;> subst h <;> decide
  · intro c h
    simp [isJsWs_not_letter h]

/-- The classes of the bare phone pattern accept no letters: digits,
`+`, parentheses, and the separator class `[-.\s]`. -/
theorem allCls_phoneBody : allCls (fun c => !(isAsciiLetter c)) phoneBody := by
  have hdig : ∀ c, isDigitC c = true → (!(isAsciiLetter c)) = true := by
    intro c h
    simp [isDigitC_not_letter h]
  have hsep : ∀ c, (c = '-' || c = '.' || isJsWs c) = true → (!(isAsciiLetter c)) = true := by
    intro c h
    simp only [Bool.or_eq_true, decide_eq_true_eq] at h
    rcases h with (h | h) | h
    · subst h; decide
    · subst h; decide
    · simp [isJsWs_not_letter h]
  have hplus : ∀ c, decide (c = '+') = true → (!(isAsciiLetter c)) = true := by
    intro c h
    rw [decide_eq_true_eq] at h
    subst h; decide
  have hlp : ∀ c, decide (c = '(') = true → (!(isAsciiLetter c)) = true := by
    intro c h
    rw [decide_eq_true_eq] at h
    subst h; decide
  have hrp : ∀ c, decide (c = ')') = true → (!(isAsciiLetter c)) = true := by
    intro c h
    rw [decide_eq_true_eq] at h
    subst h; decide
  simp only [phoneBody, phoneCountry, rep13, repN, optRE, digitRE, phoneSep, allCls]
  repeat' apply And.intro
  all_goals trivial

/-! ## More case-insensitive prefix tools -/

/-- An alternation-list match comes from one of the alternatives. -/
theorem mem_M_altList : ∀ (rs : List RE) (s : List Char) (c : Caps) (q : List Char × Caps),
    q ∈ M (altList rs) s c → ∃ r ∈ rs, q ∈ M r s c := by
  intro rs
  induction rs with
  | nil =>
    intro s c q hq
    rw [M_altList_nil] at hq
    exact absurd hq (List.not_mem_nil q)
  | cons r rest ih =>
    intro s c q hq
    rw [M_altList_cons] at hq
    rcases List.mem_append.mp hq with h | h
    · exact ⟨r, List.mem_cons_self r rest, h⟩
    · obtain ⟨r', hr', hq'⟩ := ih s c q h
      exact ⟨r', List.mem_cons_of_mem r hr', hq'⟩

/-- A pattern case-insensitively equal to `w` is a case-insensitive prefix of
`w ++ r`. -/
theorem ciPrefixOf_of_ciListEq : ∀ (w' w r : List Char), ciListEq w' w = true →
    ciPrefixOf w' (w ++ r) = true := by
  intro w'
  induction w' with
  | nil => intro w r _; simp [ciPrefixOf]
  | cons x xs ih =>
    intro w r h
    cases w with
    | nil => simp [ciListEq, ciPrefixOf] at h
    | cons y ys =>
      simp only [ciListEq, ciPrefixOf, Bool.and_eq_true, decide_eq_true_eq,
        List.length_cons] at h
      obtain ⟨⟨hxy, hpre⟩, hlen⟩ := h
      have : ciListEq xs ys = true := by
        simp only [ciListEq, Bool.and_eq_true, decide_eq_true_eq]
        exact ⟨hpre, by omega⟩
      simp only [List.cons_append, ciPrefixOf, Bool.and_eq_true]
      exact ⟨hxy, ih ys r this⟩

/-- Reading `w' ++ v` against `w ++ r` when `w'` and `w` are equal up to case
reduces to reading `v` against `r`. -/
theorem ciPrefixOf_append_cancel_ci : ∀ (w' w v r : List Char), ciListEq w' w = true →
    ciPrefixOf (w' ++ v) (w ++ r) = ciPrefixOf v r := by
  intro w'
  induction w' with
  | nil =>
    intro w v r h
    have : w = [] := by
      simp only [ciListEq, Bool.and_eq_true, decide_eq_true_eq] at h
      exact List.length_eq_zero.mp h.2.symm
    subst this
    rfl
  | cons x xs ih =>
    intro w v r h
    cases w with
    | nil => simp [ciListEq, ciPrefixOf] at h
    | cons y ys =>
      simp only [ciListEq, ciPrefixOf, Bool.and_eq_true, decide_eq_true_eq,
        List.length_cons] at h
      obtain ⟨⟨hxy, hpre⟩, hlen⟩ := h
      have hci : ciListEq xs ys = true := by
        simp only [ciListEq, Bool.and_eq_true, decide_eq_true_eq]
        exact ⟨hpre, by omega⟩
      simp only [List.cons_append, ciPrefixOf, hxy, Bool.true_and]
      exact ih ys v r hci

/-- A pattern starting with a space and a letter is never a case-insensitive
prefix of a letter-free string. -/
theorem ciPrefixOf_space_letter_false {d : Char} (hd : isAsciiLetter d = true)
    (v rest : List Char) (hr : ∀ ch ∈ rest, isAsciiLetter ch = false) :
    ciPrefixOf (' ' :: d :: v) rest = false := by
  cases rest with
  | nil => rfl
  | cons r0 rst =>
    cases rst with
    | nil => simp [ciPrefixOf]
    | cons r1 rst' =>
      have h1 : isAsciiLetter r1 = false :=
        hr r1 (List.mem_cons_of_mem r0 (List.mem_cons_self r1 rst'))
      simp [ciPrefixOf, ciEqChar_letter_false hd h1]

/-! ## Membership decompositions and the structure of a labeled phone match -/

/-- Membership in a concatenation decomposes. -/
theorem mem_M_seq {a b : RE} {s : List Char} {c : Caps} {q : List Char × Caps} :
    q ∈ M (.seq a b) s c ↔ ∃ q1 ∈ M a s c, q ∈ M b q1.1 q1.2 := by
  simp only [M, List.mem_flatMap]

/-- Membership in a greedy option decomposes. -/
theorem mem_M_optRE {r : RE} {s : List Char} {c : Caps} {q : List Char × Caps} :
    q ∈ M (optRE r) s c ↔ q ∈ M r s c ∨ q = (s, c) := by
  simp [optRE, M]

/-- Membership in a capture group decomposes. -/
theorem mem_M_group {i : Nat} {r : RE} {s : List Char} {c : Caps} {q : List Char × Caps} :
    q ∈ M (.group i r) s c ↔
      ∃ q0 ∈ M r s c, q = (q0.1, setCap c i (s.take (s.length - q0.1.length))) := by
  simp only [M, List.mem_map]
  constructor
  · rintro ⟨q0, h0, rfl⟩
    exact ⟨q0, h0, rfl⟩
  · rintro ⟨q0, h0, rfl⟩
    exact ⟨q0, h0, rfl⟩

/-- A scan result whose backtracking head is known. -/
theorem firstMatchAt_head {re : RE} {s : List Char} {a : List Char × Caps}
    (h : (M re s ({} : Caps)).head? = some a) :
    firstMatchAt re s 0 = some (0, s.take (s.length - a.1.length), a.2) := by
  cases s with
  | nil => simp [firstMatchAt, h]
  | cons x xs => simp [firstMatchAt, h]

/-- Structure of a primary phone match whose label group participated: the
consumed text is the label `L` (case-insensitively one of the recognized
variants) followed only by non-letter characters (separators and the phone
pattern itself). -/
theorem phone_match_structure {s : List Char} {q : List Char × Caps} {L : List Char}
    (hq : q ∈ M phoneRE s ({} : Caps)) (hL : q.2.g1 = some L) :
    ∃ w rest2, w ∈ labelAlts ∧ ciListEq w L = true ∧
      s = (L ++ rest2) ++ q.1 ∧ ∀ ch ∈ rest2, isAsciiLetter ch = false := by
  have hq' : q ∈ M (.seq phonePre phoneBody) s ({} : Caps) := hq
  obtain ⟨qp, hqp, hqb⟩ := mem_M_seq.mp hq'
  have hqp' : qp ∈ M (.seq (optRE (.group 1 phoneLabelRE))
      (.seq wsStar (.seq colonDash wsStar))) s ({} : Caps) := hqp
  obtain ⟨q1, hq1, hqs⟩ := mem_M_seq.mp hqp'
  have hchain : q.2.g1 = q1.2.g1 := by
    rw [M_g1 phoneBody (by decide) qp.1 qp.2 q hqb,
      M_g1 (.seq wsStar (.seq colonDash wsStar)) (by decide) q1.1 q1.2 qp hqs]
  rcases mem_M_optRE.mp hq1 with hq1 | hq1
  · obtain ⟨q0, hq0, hq1e⟩ := mem_M_group.mp hq1
    have hq0' : q0 ∈ M (altList (labelAlts.map ciStr)) s ({} : Caps) := hq0
    obtain ⟨rre, hrre, hq0m⟩ := mem_M_altList _ _ _ _ hq0'
    rw [List.mem_map] at hrre
    obtain ⟨w, hw, rfl⟩ := hrre
    rw [M_ciStr_eq] at hq0m
    by_cases hpre : ciPrefixOf w s = true
    · rw [if_pos hpre, List.mem_singleton] at hq0m
      subst hq0m
      have hwle := ciPrefixOf_length_le w s hpre
      have htake : s.length - (s.drop w.length).length = w.length := by
        rw [List.length_drop]
        omega
      have hg1v : q1.2.g1 = some (s.take w.length) := by
        rw [hq1e]
        show (setCap {} 1 (s.take (s.length - (s.drop w.length).length))).g1 = _
        rw [htake]
        rfl
      have hLeq : L = s.take w.length := by
        have h' : some (s.take w.length) = some L := by
          rw [← hg1v, ← hchain]
          exact hL
        exact (Option.some.inj h').symm
      have hci : ciListEq w L = true := by
        rw [hLeq]
        exact ciListEq_take w s hpre
      obtain ⟨t2, ht2, hp2⟩ :=
        M_consumed (.seq wsStar (.seq colonDash wsStar)) allCls_seps_tail q1.1 q1.2 qp hqs
      obtain ⟨t3, ht3, hp3⟩ := M_consumed phoneBody allCls_phoneBody qp.1 qp.2 q hqb
      refine ⟨w, t2 ++ t3, hw, hci, ?_, ?_⟩
      · have hsplit : s = s.take w.length ++ s.drop w.length :=
          (List.take_append_drop w.length s).symm
        have hq11 : q1.1 = s.drop w.length := by rw [hq1e]
        rw [hLeq]
        calc s = s.take w.length ++ s.drop w.length := hsplit
          _ = s.take w.length ++ q1.1 := by rw [hq11]
          _ = s.take w.length ++ (t2 ++ qp.1) := by rw [ht2]
          _ = s.take w.length ++ (t2 ++ (t3 ++ q.1)) := by rw [ht3]
          _ = (s.take w.length ++ (t2 ++ t3)) ++ q.1 := by
              simp [List.append_assoc]
      · intro ch hch
        rcases List.mem_append.mp hch with h | h
        · have := hp2 ch h
          rwa [Bool.not_eq_true'] at this
        · have := hp3 ch h
          rwa [Bool.not_eq_true'] at this
    · rw [if_neg hpre] at hq0m
      exact absurd hq0m (List.not_mem_nil q0)
  · rw [hq1] at hchain
    rw [hchain] at hL
    exact absurd hL (by simp)

/-- Mismatching first characters refute a case-insensitive prefix. -/
theorem ciPrefixOf_head_mismatch {x y : Char} (h : ciEqChar y x = false)
    (v ys r : List Char) : ciPrefixOf (x :: v) ((y :: ys) ++ r) = false := by
  simp [ciPrefixOf, h]

/-- Common tail of the strip analysis: once the label alternation's
backtracking list is known to start with the alternative that consumes
exactly `L` (leaving `rest2`), the `replace` removes at least the label, so
the remaining phone value lies inside the letter-free `rest2`. -/
theorem strip_common {L rest2 : List Char} {k : Nat} (hk : L.length = k)
    (hr : ∀ ch ∈ rest2, isAsciiLetter ch = false)
    (hhead : (M phoneLabelRE (L ++ rest2) ({} : Caps)).head? =
      some ((L ++ rest2).drop k, ({} : Caps))) :
    ∀ ch ∈ removeFirst phoneStripRE (L ++ rest2), isAsciiLetter ch = false := by
  obtain ⟨junk, hj⟩ : ∃ junk, M phoneLabelRE (L ++ rest2) ({} : Caps) =
      ((L ++ rest2).drop k, ({} : Caps)) :: junk := by
    cases hM : M phoneLabelRE (L ++ rest2) ({} : Caps) with
    | nil => rw [hM] at hhead; exact absurd hhead (by simp)
    | cons x t =>
      rw [hM] at hhead
      have hx : x = ((L ++ rest2).drop k, ({} : Caps)) := by simpa using hhead
      exact ⟨t, by rw [hx]⟩
  have hdrop : (L ++ rest2).drop k = rest2 := by
    rw [← hk]
    exact List.drop_left L rest2
  rw [hdrop] at hj
  have hMgroup : M (.group 1 phoneLabelRE) (L ++ rest2) ({} : Caps) =
      (rest2, setCap {} 1 ((L ++ rest2).take ((L ++ rest2).length - rest2.length))) ::
      (junk.map (fun q0 =>
        (q0.1, setCap {} 1 ((L ++ rest2).take ((L ++ rest2).length - q0.1.length))))) := by
    show (M phoneLabelRE (L ++ rest2) ({} : Caps)).map _ = _
    rw [hj, List.map_cons]
  cases hA : M (.seq colonDash wsStar) rest2
      (setCap {} 1 ((L ++ rest2).take ((L ++ rest2).length - rest2.length))) with
  | nil =>
    have := nullable_mem (.seq colonDash wsStar) (by decide) rest2
      (setCap {} 1 ((L ++ rest2).take ((L ++ rest2).length - rest2.length)))
    rw [hA] at this
    exact absurd this (List.not_mem_nil _)
  | cons a tl =>
    have ha : a ∈ M (.seq colonDash wsStar) rest2
        (setCap {} 1 ((L ++ rest2).take ((L ++ rest2).length - rest2.length))) := by
      rw [hA]
      exact List.mem_cons_self a tl
    obtain ⟨t4, ht4, _⟩ := M_consumed (.seq colonDash wsStar) allCls_colon_ws _ _ a ha
    have hflat : M phoneStripRE (L ++ rest2) ({} : Caps) =
        (a :: tl) ++ (junk.map (fun q0 =>
          (q0.1, setCap {} 1 ((L ++ rest2).take ((L ++ rest2).length - q0.1.length))))).flatMap
          (fun q1 => M (.seq colonDash wsStar) q1.1 q1.2) := by
      show (M (.group 1 phoneLabelRE) (L ++ rest2) ({} : Caps)).flatMap
        (fun q1 => M (.seq colonDash wsStar) q1.1 q1.2) = _
      rw [hMgroup, List.flatMap_cons, hA]
    have hhd : (M phoneStripRE (L ++ rest2) ({} : Caps)).head? = some a := by
      rw [hflat]
      rfl
    have hfm := firstMatchAt_head hhd
    have hlens : (L ++ rest2).length - a.1.length = L.length + t4.length := by
      have h1 : rest2.length = t4.length + a.1.length := by
        rw [ht4, List.length_append]
      simp only [List.length_append]
      omega
    have hremove : removeFirst phoneStripRE (L ++ rest2) = a.1 := by
      rw [removeFirst, hfm]
      simp only [List.take_zero, List.nil_append, Nat.zero_add]
      rw [List.length_take, hlens]
      have hle : L.length + t4.length ≤ (L ++ rest2).length := by
        simp only [List.length_append, ht4]
        simp [List.length_append]
      rw [Nat.min_eq_left hle]
      have hsplit : L ++ rest2 = (L ++ t4) ++ a.1 := by
        rw [ht4, List.append_assoc]
      rw [hsplit]
      have : (L ++ t4).length = L.length + t4.length := List.length_append L t4
      rw [← this]
      exact List.drop_left (L ++ t4) a.1
    rw [hremove]
    intro ch hch
    exact hr ch (by rw [ht4]; exact List.mem_append_right t4 hch)

/-- The strip step: when the consumed match begins with a label `L`
(case-insensitively one of the recognized variants) followed by letter-free
text, the replace with the strip regex removes at least the label, leaving
only letter-free characters.  The ordered alternation is analysed per
variant: a longer variant (the `Number` forms) can never fire on a shorter
label because the following text has no letters, and a shorter variant never
precedes the longer one it prefixes in the regex ordering. -/
theorem strip_nonletter {w L rest2 : List Char} (hw : w ∈ labelAlts)
    (hci : ciListEq w L = true) (hr : ∀ ch ∈ rest2, isAsciiLetter ch = false) :
    ∀ ch ∈ removeFirst phoneStripRE (L ++ rest2), isAsciiLetter ch = false := by
  have hlen : L.length = w.length := (ciListEq_parts hci).2
  have hcongr : ∀ v, ciPrefixOf v (L ++ rest2) = ciPrefixOf v (w ++ rest2) :=
    fun v => ciPrefixOf_congr v w L rest2 hci
  rw [labelAlts] at hw
  rcases List.mem_cons.mp hw with rfl | hw
  · -- w = "Phone Number"
    have hit : ciPrefixOf "Phone Number".data (L ++ rest2) = true := by
      rw [hcongr]
      exact ciPrefixOf_of_ciListEq _ _ _ (by decide)
    refine strip_common hlen hr ?_
    simp only [phoneLabelRE, labelAlts, List.map_cons, List.map_nil, M_altList_cons,
      M_ciStr_eq, hit, eq_self_iff_true, if_true]
    rfl
  rcases List.mem_cons.mp hw with rfl | hw
  · -- w = "Phone number"
    have hit : ciPrefixOf "Phone Number".data (L ++ rest2) = true := by
      rw [hcongr]
      exact ciPrefixOf_of_ciListEq _ _ _ (by decide)
    refine strip_common (k := ("Phone Number".data).length) (by rw [hlen]; decide) hr ?_
    simp only [phoneLabelRE, labelAlts, List.map_cons, List.map_nil, M_altList_cons,
      M_ciStr_eq, hit, eq_self_iff_true, if_true]
    rfl
  rcases List.mem_cons.mp hw with rfl | hw
  · -- w = "Contact Number"
    have c1 : ciPrefixOf "Phone Number".data (L ++ rest2) = false := by
      rw [hcongr, show ("Contact Number".data : List Char) = 'C' :: "ontact Number".data
        from rfl, show ("Phone Number".data : List Char) = 'P' :: "hone Number".data from rfl]
      exact ciPrefixOf_head_mismatch (by decide) _ _ _
    have c2 : ciPrefixOf "Phone number".data (L ++ rest2) = false := by
      rw [hcongr, show ("Contact Number".data : List Char) = 'C' :: "ontact Number".data
        from rfl, show ("Phone number".data : List Char) = 'P' :: "hone number".data from rfl]
      exact ciPrefixOf_head_mismatch (by decide) _ _ _
    have hit : ciPrefixOf "Contact Number".data (L ++ rest2) = true := by
      rw [hcongr]
      exact ciPrefixOf_of_ciListEq _ _ _ (by decide)
    refine strip_common hlen hr ?_
    simp only [phoneLabelRE, labelAlts, List.map_cons, List.map_nil, M_altList_cons,
      M_ciStr_eq, c1, c2, hit, eq_self_iff_true, if_true, Bool.false_eq_true, if_false]
    rfl
  rcases List.mem_cons.mp hw with rfl | hw
  · -- w = "Contact number"
    have c1 : ciPrefixOf "Phone Number".data (L ++ rest2) = false := by
      rw [hcongr, show ("Contact number".data : List Char) = 'C' :: "ontact number".data
        from rfl, show ("Phone Number".data : List Char) = 'P' :: "hone Number".data from rfl]
      exact ciPrefixOf_head_mismatch (by decide) _ _ _
    have c2 : ciPrefixOf "Phone number".data (L ++ rest2) = false := by
      rw [hcongr, show ("Contact number".data : List Char) = 'C' :: "ontact number".data
        from rfl, show ("Phone number".data : List Char) = 'P' :: "hone number".data from rfl]
      exact ciPrefixOf_head_mismatch (by decide) _ _ _
    have hit : ciPrefixOf "Contact Number".data (L ++ rest2) = true := by
      rw [hcongr]
      exact ciPrefixOf_of_ciListEq _ _ _ (by decide)
    refine strip_common (k := ("Contact Number".data).length) (by rw [hlen]; decide) hr ?_
    simp only [phoneLabelRE, labelAlts, List.map_cons, List.map_nil, M_altList_cons,
      M_ciStr_eq, c1, c2, hit, eq_self_iff_true, if_true, Bool.false_eq_true, if_false]
    rfl
  rcases List.mem_cons.mp hw with rfl | hw
  · -- w = "Contact"
    have c1 : ciPrefixOf "Phone Number".data (L ++ rest2) = false := by
      rw [hcongr, show ("Contact".data : List Char) = 'C' :: "ontact".data from rfl,
        show ("Phone Number".data : List Char) = 'P' :: "hone Number".data from rfl]
      exact ciPrefixOf_head_mismatch (by decide) _ _ _
    have c2 : ciPrefixOf "Phone number".data (L ++ rest2) = false := by
      rw [hcongr, show ("Contact".data : List Char) = 'C' :: "ontact".data from rfl,
        show ("Phone number".data : List Char) = 'P' :: "hone number".data from rfl]
      exact ciPrefixOf_head_mismatch (by decide) _ _ _
    have c3 : ciPrefixOf "Contact Number".data (L ++ rest2) = false := by
      rw [hcongr, show ("Contact Number".data : List Char) =
          "Contact".data ++ (' ' :: 'N' :: "umber".data) from rfl,
        ciPrefixOf_append_cancel_ci "Contact".data "Contact".data _ _ (by decide)]
      exact ciPrefixOf_space_letter_false (by decide) _ rest2 hr
    have c4 : ciPrefixOf "Contact number".data (L ++ rest2) = false := by
      rw [hcongr, show ("Contact number".data : List Char) =
          "Contact".data ++ (' ' :: 'n' :: "umber".data) from rfl,
        ciPrefixOf_append_cancel_ci "Contact".data "Contact".data _ _ (by decide)]
      exact ciPrefixOf_space_letter_false (by decide) _ rest2 hr
    have hit : ciPrefixOf "Contact".data (L ++ rest2) = true := by
      rw [hcongr]
      exact ciPrefixOf_of_ciListEq _ _ _ (by decide)
    refine strip_common hlen hr ?_
    simp only [phoneLabelRE, labelAlts, List.map_cons, List.map_nil, M_altList_cons,
      M_ciStr_eq, c1, c2, c3, c4, hit, eq_self_iff_true, if_true, Bool.false_eq_true,
      if_false]
    rfl
  rcases List.mem_cons.mp hw with rfl | hw
  · -- w = "CONTACT"
    have c1 : ciPrefixOf "Phone Number".data (L ++ rest2) = false := by
      rw [hcongr, show ("CONTACT".data : List Char) = 'C' :: "ONTACT".data from rfl,
        show ("Phone Number".data : List Char) = 'P' :: "hone Number".data from rfl]
      exact ciPrefixOf_head_mismatch (by decide) _ _ _
    have c2 : ciPrefixOf "Phone number".data (L ++ rest2) = false := by
      rw [hcongr, show ("CONTACT".data : List Char) = 'C' :: "ONTACT".data from rfl,
        show ("Phone number".data : List Char) = 'P' :: "hone number".data from rfl]
      exact ciPrefixOf_head_mismatch (by decide) _ _ _
    have c3 : ciPrefixOf "Contact Number".data (L ++ rest2) = false := by
      rw [hcongr, show ("Contact Number".data : List Char) =
          "Contact".data ++ (' ' :: 'N' :: "umber".data) from rfl,
        ciPrefixOf_append_cancel_ci "Contact".data "CONTACT".data _ _ (by decide)]
      exact ciPrefixOf_space_letter_false (by decide) _ rest2 hr
    have c4 : ciPrefixOf "Contact number".data (L ++ rest2) = false := by
      rw [hcongr, show ("Contact number".data : List Char) =
          "Contact".data ++ (' ' :: 'n' :: "umber".data) from rfl,
        ciPrefixOf_append_cancel_ci "Contact".data "CONTACT".data _ _ (by decide)]
      exact ciPrefixOf_space_letter_false (by decide) _ rest2 hr
    have hit : ciPrefixOf "Contact".data (L ++ rest2) = true := by
      rw [hcongr]
      exact ciPrefixOf_of_ciListEq _ _ _ (by decide)
    refine strip_common (k := ("Contact".data).length) (by rw [hlen]; decide) hr ?_
    simp only [phoneLabelRE, labelAlts, List.map_cons, List.map_nil, M_altList_cons,
      M_ciStr_eq, c1, c2, c3, c4, hit, eq_self_iff_true, if_true, Bool.false_eq_true,
      if_false]
    rfl
  rcases List.mem_cons.mp hw with rfl | hw
  · -- w = "Phone"
    have c1 : ciPrefixOf "Phone Number".data (L ++ rest2) = false := by
      rw [hcongr, show ("Phone Number".data : List Char) =
          "Phone".data ++ (' ' :: 'N' :: "umber".data) from rfl,
        ciPrefixOf_append_cancel_ci "Phone".data "Phone".data _ _ (by decide)]
      exact ciPrefixOf_space_letter_false (by decide) _ rest2 hr
    have c2 : ciPrefixOf "Phone number".data (L ++ rest2) = false := by
      rw [hcongr, show ("Phone number".data : List Char) =
          "Phone".data ++ (' ' :: 'n' :: "umber".data) from rfl,
        ciPrefixOf_append_cancel_ci "Phone".data "Phone".data _ _ (by decide)]
      exact ciPrefixOf_space_letter_false (by decide) _ rest2 hr
    have c3 : ciPrefixOf "Contact Number".data (L ++ rest2) = false := by
      rw [hcongr, show ("Phone".data : List Char) = 'P' :: "hone".data from rfl,
        show ("Contact Number".data : List Char) = 'C' :: "ontact Number".data from rfl]
      exact ciPrefixOf_head_mismatch (by decide) _ _ _
    have c4 : ciPrefixOf "Contact number".data (L ++ rest2) = false := by
      rw [hcongr, show ("Phone".data : List Char) = 'P' :: "hone".data from rfl,
        show ("Contact number".data : List Char) = 'C' :: "ontact number".data from rfl]
      exact ciPrefixOf_head_mismatch (by decide) _ _ _
    have c5 : ciPrefixOf "Contact".data (L ++ rest2) = false := by
      rw [hcongr, show ("Phone".data : List Char) = 'P' :: "hone".data from rfl,
        show ("Contact".data : List Char) = 'C' :: "ontact".data from rfl]
      exact ciPrefixOf_head_mismatch (by decide) _ _ _
    have c6 : ciPrefixOf "CONTACT".data (L ++ rest2) = false := by
      rw [hcongr, show ("Phone".data : List Char) = 'P' :: "hone".data from rfl,
        show ("CONTACT".data : List Char) = 'C' :: "ONTACT".data from rfl]
      exact ciPrefixOf_head_mismatch (by decide) _ _ _
    have hit : ciPrefixOf "Phone".data (L ++ rest2) = true := by
      rw [hcongr]
      exact ciPrefixOf_of_ciListEq _ _ _ (by decide)
    refine strip_common hlen hr ?_
    simp only [phoneLabelRE, labelAlts, List.map_cons, List.map_nil, M_altList_cons,
      M_ciStr_eq, c1, c2, c3, c4, c5, c6, hit, eq_self_iff_true, if_true,
      Bool.false_eq_true, if_false]
    rfl
  rcases List.mem_cons.mp hw with rfl | hw
  · -- w = "PHONE"
    have c1 : ciPrefixOf "Phone Number".data (L ++ rest2) = false := by
      rw [hcongr, show ("Phone Number".data : List Char) =
          "Phone".data ++ (' ' :: 'N' :: "umber".data) from rfl,
        ciPrefixOf_append_cancel_ci "Phone".data "PHONE".data _ _ (by decide)]
      exact ciPrefixOf_space_letter_false (by decide) _ rest2 hr
    have c2 : ciPrefixOf "Phone number".data (L ++ rest2) = false := by
      rw [hcongr, show ("Phone number".data : List Char) =
          "Phone".data ++ (' ' :: 'n' :: "umber".data) from rfl,
        ciPrefixOf_append_cancel_ci "Phone".data "PHONE".data _ _ (by decide)]
      exact ciPrefixOf_space_letter_false (by decide) _ rest2 hr
    have c3 : ciPrefixOf "Contact Number".data (L ++ rest2) = false := by
      rw [hcongr, show ("PHONE".data : List Char) = 'P' :: "HONE".data from rfl,
        show ("Contact Number".data : List Char) = 'C' :: "ontact Number".data from rfl]
      exact ciPrefixOf_head_mismatch (by decide) _ _ _
    have c4 : ciPrefixOf "Contact number".data (L ++ rest2) = false := by
      rw [hcongr, show ("PHONE".data : List Char) = 'P' :: "HONE".data from rfl,
        show ("Contact number".data : List Char) = 'C' :: "ontact number".data from rfl]
      exact ciPrefixOf_head_mismatch (by decide) _ _ _
    have c5 : ciPrefixOf "Contact".data (L ++ rest2) = false := by
      rw [hcongr, show ("PHONE".data : List Char) = 'P' :: "HONE".data from rfl,
        show ("Contact".data : List Char) = 'C' :: "ontact".data from rfl]
      exact ciPrefixOf_head_mismatch (by decide) _ _ _
    have c6 : ciPrefixOf "CONTACT".data (L ++ rest2) = false := by
      rw [hcongr, show ("PHONE".data : List Char) = 'P' :: "HONE".data from rfl,
        show ("CONTACT".data : List Char) = 'C' :: "ONTACT".data from rfl]
      exact ciPrefixOf_head_mismatch (by decide) _ _ _
    have hit : ciPrefixOf "Phone".data (L ++ rest2) = true := by
      rw [hcongr]
      exact ciPrefixOf_of_ciListEq _ _ _ (by decide)
    refine strip_common (k := ("Phone".data).length) (by rw [hlen]; decide) hr ?_
    simp only [phoneLabelRE, labelAlts, List.map_cons, List.map_nil, M_altList_cons,
      M_ciStr_eq, c1, c2, c3, c4, c5, c6, hit, eq_self_iff_true, if_true,
      Bool.false_eq_true, if_false]
    rfl
  exact absurd hw (List.not_mem_nil w)

/-! ## Capture-state independence: the remaining-suffix lists produced by the
matcher do not depend on the incoming capture state (captures are
write-only), so matchability transfers between capture states. -/

/-- flatMap respects pointwise-equal functions. -/
theorem flatMap_congr_mem {α β : Type} {l : List α} {f g : α → List β}
    (h : ∀ x ∈ l, f x = g x) : l.flatMap f = l.flatMap g := by
  induction l with
  | nil => rfl
  | cons a t ih =>
    simp only [List.flatMap_cons]
    rw [h a (List.mem_cons_self a t), ih (fun x hx => h x (List.mem_cons_of_mem a hx))]

/-- Mapping first components through a flatMap. -/
theorem map_fst_flatMap {α β γ : Type} (l : List α) (g : α → List (β × γ)) :
    (l.flatMap g).map Prod.fst = l.flatMap (fun x => (g x).map Prod.fst) := by
  induction l with
  | nil => rfl
  | cons a t ih => simp only [List.flatMap_cons, List.map_append, ih]

/-- A flatMap whose function reads only the first component factors through
the first-component list. -/
theorem flatMap_fst {γ : Type} (l : List (List Char × Caps)) (H : List Char → List γ) :
    l.flatMap (fun q => H q.1) = (l.map Prod.fst).flatMap H := by
  induction l with
  | nil => rfl
  | cons a t ih => simp only [List.flatMap_cons, List.map_cons, ih]

/-- A filter whose predicate reads only the first component commutes with
taking first components. -/
theorem filter_fst_map (l : List (List Char × Caps)) (pred : List Char → Bool) :
    (l.filter (fun q => pred q.1)).map Prod.fst = (l.map Prod.fst).filter pred := by
  induction l with
  | nil => rfl
  | cons a t ih =>
    by_cases h : pred a.1 = true
    · simp [List.filter_cons, h, ih]
    · simp [List.filter_cons, h, ih]

/-- Combination of the two previous facts, as used in the star case. -/
theorem flatMap_filter_fst {γ : Type} (l : List (List Char × Caps))
    (pred : List Char → Bool) (H : List Char → List γ) :
    (l.filter (fun q => pred q.1)).flatMap (fun q => H q.1) =
      ((l.map Prod.fst).filter pred).flatMap H := by
  rw [flatMap_fst, filter_fst_map]

/-- Star auxiliary for `M_fst_congr` (greedy). -/
theorem MstarG_fst {f : List Char → Caps → List (List Char × Caps)}
    (hf : ∀ s c c', (f s c).map Prod.fst = (f s c').map Prod.fst) :
    ∀ n s c c', (MstarG f n s c).map Prod.fst = (MstarG f n s c').map Prod.fst := by
  intro n
  induction n with
  | zero => intro s c c'; rfl
  | succ n ih =>
    intro s c c'
    simp only [MstarG, List.map_append]
    congr 1
    rw [map_fst_flatMap, map_fst_flatMap]
    have key : ∀ c0 : Caps,
        ((f s c0).filter (fun q => q.1.length < s.length)).flatMap
          (fun q => (MstarG f n q.1 q.2).map Prod.fst) =
        (((f s c0).map Prod.fst).filter (fun s1 => s1.length < s.length)).flatMap
          (fun s1 => (MstarG f n s1 ({} : Caps)).map Prod.fst) := by
      intro c0
      rw [← flatMap_filter_fst]
      exact flatMap_congr_mem (fun q _ => ih q.1 q.2 {})
    rw [key c, key c', hf s c c']

/-- Star auxiliary for `M_fst_congr` (lazy). -/
theorem MstarL_fst {f : List Char → Caps → List (List Char × Caps)}
    (hf : ∀ s c c', (f s c).map Prod.fst = (f s c').map Prod.fst) :
    ∀ n s c c', (MstarL f n s c).map Prod.fst = (MstarL f n s c').map Prod.fst := by
  intro n
  induction n with
  | zero => intro s c c'; rfl
  | succ n ih =>
    intro s c c'
    simp only [MstarL, List.map_cons]
    congr 1
    rw [map_fst_flatMap, map_fst_flatMap]
    have key : ∀ c0 : Caps,
        ((f s c0).filter (fun q => q.1.length < s.length)).flatMap
          (fun q => (MstarL f n q.1 q.2).map Prod.fst) =
        (((f s c0).map Prod.fst).filter (fun s1 => s1.length < s.length)).flatMap
          (fun s1 => (MstarL f n s1 ({} : Caps)).map Prod.fst) := by
      intro c0
      rw [← flatMap_filter_fst]
      exact flatMap_congr_mem (fun q _ => ih q.1 q.2 {})
    rw [key c, key c', hf s c c']

/-- The list of remaining suffixes of a match does not depend on the incoming
capture state. -/
theorem M_fst_congr : ∀ (re : RE) (s : List Char) (c c' : Caps),
    (M re s c).map Prod.fst = (M re s c').map Prod.fst := by
  intro re
  induction re with
  | eps => intro s c c'; rfl
  | cls p =>
    intro s c c'
    cases s with
    | nil => rfl
    | cons x xs => by_cases h : p x = true <;> simp [M, h]
  | seq a b iha ihb =>
    intro s c c'
    simp only [M]
    rw [map_fst_flatMap, map_fst_flatMap]
    have key : ∀ c0 : Caps, (M a s c0).flatMap (fun q => (M b q.1 q.2).map Prod.fst) =
        ((M a s c0).map Prod.fst).flatMap (fun s1 => (M b s1 ({} : Caps)).map Prod.fst) := by
      intro c0
      rw [← flatMap_fst]
      exact flatMap_congr_mem (fun q _ => ihb q.1 q.2 {})
    rw [key c, key c', iha s c c']
  | alt a b iha ihb =>
    intro s c c'
    simp only [M, List.map_append, iha s c c', ihb s c c']
  | starG r ih =>
    intro s c c'
    simp only [M]
    exact MstarG_fst (fun s0 c0 c0' => ih s0 c0 c0') s.length s c c'
  | starL r ih =>
    intro s c c'
    simp only [M]
    exact MstarL_fst (fun s0 c0 c0' => ih s0 c0 c0') s.length s c c'
  | look r ih =>
    intro s c c'
    simp only [M]
    cases hM : M r s c with
    | nil =>
      cases hM' : M r s c' with
      | nil => rfl
      | cons a t =>
        have hc := ih s c c'
        rw [hM, hM'] at hc
        simp at hc
    | cons a t =>
      cases hM' : M r s c' with
      | nil =>
        have hc := ih s c c'
        rw [hM, hM'] at hc
        simp at hc
      | cons a' t' => rfl
  | eos =>
    intro s c c'
    by_cases h : s.isEmpty <;> simp [M, h]
  | group i r ih =>
    intro s c c'
    simp only [M]
    have e : ∀ cx : Caps,
        ((M r s cx).map (fun q => (q.1, setCap cx i (s.take (s.length - q.1.length))))).map
          Prod.fst = (M r s cx).map Prod.fst := by
      intro cx
      rw [List.map_map]
      exact List.map_congr_left (fun x _ => rfl)
    rw [e c, e c', ih s c c']

/-- Matchability is independent of the incoming capture state. -/
theorem M_eq_nil_congr {re : RE} {s : List Char} {c c' : Caps} (h : M re s c = []) :
    M re s c' = [] := by
  have hc := M_fst_congr re s c c'
  rw [h] at hc
  have h2 : (M re s c').map Prod.fst = [] := hc.symm
  exact List.map_eq_nil_iff.mp h2

/-- Every regex satisfies the trivial class bound. -/
theorem allCls_true : ∀ re : RE, allCls (fun _ => true) re := by
  intro re
  induction re with
  | eps => trivial
  | cls p => intro c _; rfl
  | seq a b iha ihb => exact ⟨iha, ihb⟩
  | alt a b iha ihb => exact ⟨iha, ihb⟩
  | starG r ih => exact ih
  | starL r ih => exact ih
  | look r ih => trivial
  | eos => trivial
  | group i r ih => exact ih

/-! ## Fallback-regex transfer lemmas: the primary regexes start with an
all-optional (nullable) front, so wherever the bare pattern matches, the
primary regex matches as well.  Conversely, every primary match contains a
bare-pattern match, so the two regexes succeed on exactly the same texts. -/

/-- If the labeled email regex matches nowhere, the unlabeled fallback regex
matches nowhere either. -/
theorem email_fallback_none {t : List Char} (h : firstMatchAt emailRE t 0 = none) :
    firstMatchAt emailFallbackRE t 0 = none := by
  apply firstMatchAt_none_of_drop
  intro k
  have h1 : M (.seq emailPre (.group 2 emailPat)) (t.drop k) {} = [] :=
    firstMatchAt_none_drop t 0 h k
  have h2 : M (.group 2 emailPat) (t.drop k) {} = [] :=
    M_seq_nullable_empty (by decide) h1
  exact M_group_eq_nil.mpr (M_group_eq_nil.mp h2)

/-- Conversely, if the unlabeled email fallback regex matches nowhere, the
primary (label-optional) email regex matches nowhere either: every primary
match ends in a bare-pattern match. -/
theorem email_primary_none_of_fallback_none {t : List Char}
    (h : firstMatchAt emailFallbackRE t 0 = none) :
    firstMatchAt emailRE t 0 = none := by
  apply firstMatchAt_none_of_drop
  intro k
  rw [List.eq_nil_iff_forall_not_mem]
  intro q hq
  have hq0 : q ∈ M (.seq emailPre (.group 2 emailPat)) (t.drop k) ({} : Caps) := hq
  obtain ⟨q1, hq1, hq2⟩ := mem_M_seq.mp hq0
  obtain ⟨q0, hq3, _⟩ := mem_M_group.mp hq2
  obtain ⟨tp, htp, _⟩ := M_consumed emailPre (allCls_true emailPre) (t.drop k) {} q1 hq1
  have hsuffix : q1.1 = t.drop (k + tp.length) := by
    have h1 : t.drop (k + tp.length) = (t.drop k).drop tp.length :=
      (List.drop_drop tp.length k t).symm
    rw [h1, htp]
    exact (List.drop_left tp q1.1).symm
  have hb : M emailFallbackRE (t.drop (k + tp.length)) ({} : Caps) = [] :=
    firstMatchAt_none_drop t 0 h (k + tp.length)
  have hpat : M emailPat (t.drop (k + tp.length)) ({} : Caps) = [] :=
    M_group_eq_nil.mp (show M (RE.group 1 emailPat) (t.drop (k + tp.length)) {} = [] from hb)
  have hnil : M emailPat q1.1 ({} : Caps) = [] := by rw [hsuffix]; exact hpat
  have hnil2 : M emailPat q1.1 q1.2 = [] := M_eq_nil_congr hnil
  rw [hnil2] at hq3
  exact absurd hq3 (List.not_mem_nil q0)

/-- If the labeled phone regex matches nowhere, the unlabeled fallback regex
matches nowhere either. -/
theorem phone_fallback_none {t : List Char} (h : firstMatchAt phoneRE t 0 = none) :
    firstMatchAt phoneFallbackRE t 0 = none := by
  apply firstMatchAt_none_of_drop
  intro k
  have h1 : M (.seq phonePre phoneBody) (t.drop k) {} = [] :=
    firstMatchAt_none_drop t 0 h k
  exact M_seq_nullable_empty (by decide) h1

/-! ## Claim theorems -/

/-- Claim C1 (the code contradicts it): the helper parsers
`extractTextFromPDF`/`extractTextFromDOCX` do degrade a parse failure to the
empty string, but the `/submit` route calls `pdf(fileBuffer)` inline without
that guard, so a corrupt PDF upload makes the whole submission fail with the
`catch` branch's HTTP 500 instead of continuing with empty text. -/
theorem C1_corrupt_pdf_rejects_submission :
    submitRoute
      { originalname := "cv.pdf", pdfParse := .fail, docxParse := .ok "",
        personTag := "", eduTags := [], skillTags := [], projTags := [],
        publicUrl := "u", formName := "n", formEmail := "e", formPhone := "p" } =
      SubmitOutcome.serverError .parseFailure
  ∧ extractTextFromPDF .fail = "" ∧ extractTextFromDOCX .fail = "" :=
  ⟨by decide, rfl, rfl⟩

/-- Claim C2 counterexample: on the spec's own example text the tier-2 skills
fallback does not return `["Python", "Go"]` — the alternation matches the
alternative `Skill` before `Skills`, so the leftover `s` heads the captured
span. -/
theorem C2_counterexample :
    extractSkills [] "Skills\nPython\nGo\nEducation\nBSc" ≠ ["Python", "Go"] := by
  decide

/-- Claim C2 (amended): with tier-1 empty, the fallback regex matches the
first-listed vocabulary alternative (`Skill`, shorter than the header
`Skills` actually present), captures lazily up to the next occurrence of
`Projects`/`Education` (case-insensitive) or end of text, and returns the
trimmed non-empty lines — hence `["s", "Python", "Go"]` on the spec's
example. -/
theorem C2_skills_fallback_actual :
    extractSkills [] "Skills\nPython\nGo\nEducation\nBSc" = ["s", "Python", "Go"] := by
  decide

/-- Claim C3: an uploaded filename whose suffix after the final `.` is neither
`pdf` nor `docx` makes the route throw `UnsupportedFormat`; the submission is
rejected no matter what the parsers, the tagger or the form fields would have
produced — no extraction or inference output reaches the response. -/
theorem C3_unsupported_extension_rejected (inp : SubmitInput)
    (h1 : getExtension inp.originalname ≠ "pdf")
    (h2 : getExtension inp.originalname ≠ "docx") :
    submitRoute inp = .serverError .unsupportedFormat := by
  simp [submitRoute, h1, h2]

/-- Claim C3 witness: a `.txt` upload is rejected. -/
theorem C3_witness :
    submitRoute
      { originalname := "resume.txt", pdfParse := .ok "x", docxParse := .ok "x",
        personTag := "", eduTags := [], skillTags := [], projTags := [],
        publicUrl := "u", formName := "n", formEmail := "e", formPhone := "p" } =
      SubmitOutcome.serverError .unsupportedFormat :=
  C3_unsupported_extension_rejected _ (by decide) (by decide)

/-- Claim C6 counterexample: a text that contains the line `Name: Jane Doe`
but starts with two other lowercase words.  The name regex's label is
optional and, under the `i` flag, its word pattern matches any two-or-more
letter words, so the leftmost match is `so long\nName` — not `Jane Doe`. -/
theorem C6_counterexample :
    "Name: Jane Doe".data ∈ splitNl "so long\nName: Jane Doe".data
  ∧ (extractPersonalInfo "" "so long\nName: Jane Doe").name = "so long\nName"
  ∧ (extractPersonalInfo "" "so long\nName: Jane Doe").name ≠ "Jane Doe" := by
  refine ⟨by decide, by decide, by decide⟩

/-- Claim C6 (amended): the labeled-line heuristic is not a separate
first-priority resolver — label and capitalized-sequence share one regex with
the label optional, and the leftmost letter-word sequence wins.  When the
document consists of the labeled line alone (no earlier letter-word pair and
no following word to extend the greedy match), the remainder of the line is
returned: on the text `Name: Jane Doe` the name is `Jane Doe`. -/
theorem C6_label_line_alone :
    (extractPersonalInfo "" "Name: Jane Doe").name = "Jane Doe" := by
  decide

/-- Claim C7 counterexample: the text `x ab cd` has no `Name` label (not even
case-insensitively), no capitalized two-word sequence in the spec's
case-sensitive sense, and no person-entity match (`personTag = ""`), yet the
name is `ab cd` — the `i` flag makes the fallback regex match the lowercase
pair — and not the trimmed first non-empty line `x ab cd`. -/
theorem C7_counterexample :
    firstMatchAt (ciStr "Name".data) "x ab cd".data 0 = none
  ∧ firstMatchAt specCapSeqRE "x ab cd".data 0 = none
  ∧ specFirstNonEmptyLine "x ab cd".data = "x ab cd".data
  ∧ (extractPersonalInfo "" "x ab cd").name = "ab cd"
  ∧ ("ab cd" : String) ≠ "x ab cd" := by
  refine ⟨by decide, by decide, by decide, by decide, by decide⟩

/-- Claim C7 (amended): when the name regex — whose case-insensitive word
pattern accepts any two-or-more-letter words, not only capitalized ones —
matches nowhere and there is no person-entity match, the name is the trimmed
first non-empty line of the document (empty when there is none). -/
theorem C7_first_line_fallback (personTag : String) (text : String)
    (h1 : firstMatchAt nameRE text.data 0 = none) (h2 : personTag = "") :
    (extractPersonalInfo personTag text).name = strOfL (specFirstNonEmptyLine text.data) := by
  subst h2
  simp [extractPersonalInfo, inferName, h1, specFirstNonEmptyLine, trimmedLines]

/-- Claim C7 witness. -/
theorem C7_witness :
    (extractPersonalInfo "" "123\nabc").name = strOfL (specFirstNonEmptyLine "123\nabc".data) :=
  C7_first_line_fallback "" "123\nabc" (by decide) rfl

/-- Claim C8 counterexample: for the absent argument (`undefined`),
`JSON.stringify` yields no string, so the guard fails and the subsequent
`text.match(…)` throws (modelled by `none`) — the functions do crash; and for
a numeric argument the coerced digits match the phone pattern and the
first-line fallback, so the result is not default/empty either. -/
theorem C8_counterexample :
    extractPersonalInfoJS "" JSValue.undef = none
  ∧ extractEducationJS [] JSValue.undef = none
  ∧ extractSkillsJS [] JSValue.undef = none
  ∧ extractProjectsJS [] JSValue.undef = none
  ∧ extractPersonalInfoJS "" (JSValue.num 5551234567) =
      some { name := "5551234567", email := "", phone := "5551234567" } := by
  refine ⟨rfl, rfl, rfl, rfl, by decide⟩

/-- Claim C8 (amended): every non-string argument other than `undefined`
(numbers, objects, `null`) is coerced through `JSON.stringify` to a string
and each inference function then runs its normal heuristics on that string
without crashing — though the results are whatever the heuristics produce on
the JSON text, not necessarily empty. -/
theorem C8_nonstring_coercion (personTag : String) (tier1 : List String) (v : JSValue)
    (h : v ≠ JSValue.undef) :
    (extractPersonalInfoJS personTag v).isSome = true
  ∧ (extractEducationJS tier1 v).isSome = true
  ∧ (extractSkillsJS tier1 v).isSome = true
  ∧ (extractProjectsJS tier1 v).isSome = true := by
  cases v with
  | undef => exact absurd rfl h
  | str s => exact ⟨rfl, rfl, rfl, rfl⟩
  | num n => exact ⟨rfl, rfl, rfl, rfl⟩
  | null => exact ⟨rfl, rfl, rfl, rfl⟩
  | emptyObj => exact ⟨rfl, rfl, rfl, rfl⟩

/-- Claim C8 witness. -/
theorem C8_witness :
    (extractPersonalInfoJS "" JSValue.null).isSome = true
  ∧ (extractEducationJS [] JSValue.null).isSome = true
  ∧ (extractSkillsJS [] JSValue.null).isSome = true
  ∧ (extractProjectsJS [] JSValue.null).isSome = true :=
  C8_nonstring_coercion "" [] JSValue.null (by decide)

/-- Claim C9: when tier-1 tagging produces a non-empty match list, the
returned collection is that list deduplicated — no duplicates, the same
members, and ordered by first occurrence in the underlying match list. -/
theorem C9_tier1_dedup (tier1 : List String) (text : String) (h : tier1 ≠ []) :
    (extractEducation tier1 text).Nodup
  ∧ (∀ a, a ∈ extractEducation tier1 text ↔ a ∈ tier1)
  ∧ (extractEducation tier1 text).Pairwise
      (fun a b => tier1.indexOf a < tier1.indexOf b) := by
  have he : extractEducation tier1 text = dedupFirst tier1 := by
    cases tier1 with
    | nil => exact absurd rfl h
    | cons x xs =>
      have hlen : ¬((dedupFirst (x :: xs)).length = 0) := by
        simp [dedupFirst, dedupAux]
      simp [extractEducation, hlen]
  rw [he]
  refine ⟨dedupAux_nodup tier1 [], ?_, dedupAux_pairwise tier1 []⟩
  intro a
  rw [dedupFirst, mem_dedupAux]
  simp

/-- Claim C9 witness: duplicated tagged matches are deduplicated in
first-occurrence order. -/
theorem C9_witness :
    (extractEducation ["Education", "Education", "Academic Background"] "t").Nodup
  ∧ (∀ a, a ∈ extractEducation ["Education", "Education", "Academic Background"] "t" ↔
      a ∈ ["Education", "Education", "Academic Background"])
  ∧ (extractEducation ["Education", "Education", "Academic Background"] "t").Pairwise
      (fun a b => (["Education", "Education", "Academic Background"] : List String).indexOf a <
        (["Education", "Education", "Academic Background"] : List String).indexOf b) :=
  C9_tier1_dedup ["Education", "Education", "Academic Background"] "t" (by decide)

/-- Claim C4 counterexample: the text `a@b.co Email: c@d.co` has a labeled
email line, yet the result is the earlier unlabeled address — the primary
regex's label group is optional, so no preference for labeled lines exists.
(On `Email: c@d.co` alone the labeled value is indeed returned, because it is
the first email-shaped substring.) -/
theorem C4_counterexample :
    (extractPersonalInfo "" "Email: c@d.co").email = "c@d.co"
  ∧ (extractPersonalInfo "" "a@b.co Email: c@d.co").email = "a@b.co"
  ∧ (extractPersonalInfo "" "a@b.co Email: c@d.co").email ≠ "c@d.co" := by
  refine ⟨by decide, by decide, by decide⟩

/-- Claim C4 (amended): email resolution has no labeled-line preference —
label and address share one regex whose label prefix is entirely optional, and
for every text the result is exactly the address capture (group 2) of the
leftmost match of that single regex.  When an `Email` label with its optional
`:`/`-` separator immediately precedes the address at the match position, the
optional prefix consumes it and it is excluded from the result, so the result
need not be the first bare-pattern substring of the text: on `Email-a@b.co`
the bare pattern first matches `Email-a@b.co` (`-` is in the local-part
class), yet the code returns `a@b.co`.  The unlabeled fallback branch is dead
code — the bare pattern matches somewhere iff the primary regex does — and
the email field is empty exactly when the bare pattern matches nowhere.  On
`Jane\njane.doe@example.com` (unlabeled, first email-shaped substring) the
result is `jane.doe@example.com`. -/
theorem C4_email_resolution :
    (∀ (personTag text : String),
        (extractPersonalInfo personTag text).email =
          match firstMatchAt emailRE text.data 0 with
          | some q => strOfL (jsTrim (q.2.2.g2.getD []))
          | none => "")
  ∧ (∀ text : String,
        firstMatchAt emailRE text.data 0 = none ↔
          firstMatchAt emailFallbackRE text.data 0 = none)
  ∧ (∀ (personTag text : String), firstMatchAt emailFallbackRE text.data 0 = none →
        (extractPersonalInfo personTag text).email = "")
  ∧ ((extractPersonalInfo "" "Email-a@b.co").email = "a@b.co"
      ∧ (firstMatchAt emailFallbackRE "Email-a@b.co".data 0).map (fun q => q.2.1) =
          some "Email-a@b.co".data)
  ∧ (extractPersonalInfo "" "Jane\njane.doe@example.com").email = "jane.doe@example.com" := by
  have hval : ∀ (personTag text : String),
      (extractPersonalInfo personTag text).email =
        match firstMatchAt emailRE text.data 0 with
        | some q => strOfL (jsTrim (q.2.2.g2.getD []))
        | none => "" := by
    intro pt text
    cases h : firstMatchAt emailRE text.data 0 with
    | some q => simp [extractPersonalInfo, inferEmail, h]
    | none =>
      have hf := email_fallback_none h
      simp [extractPersonalInfo, inferEmail, h, hf, strOfL]
  refine ⟨hval, ?_, ?_, ⟨by decide, by decide⟩, by decide⟩
  · intro text
    exact ⟨email_fallback_none, email_primary_none_of_fallback_none⟩
  · intro pt text hb
    rw [hval pt text, email_primary_none_of_fallback_none hb]

/-- Claim C4 witness. -/
theorem C4_witness : (extractPersonalInfo "" "hi").email = "" :=
  C4_email_resolution.2.2.1 "" "hi" (by decide)

/-- Claim C10: the unlabeled phone fallback branch is dead code — whenever the
bare phone pattern matches somewhere, the primary regex (whose label is
optional) matches too, so the `else` branch's regex can never succeed after
the primary failed, and the returned phone always comes from the primary
match. -/
theorem C10_phone_fallback_unreachable :
    (∀ text : String, firstMatchAt phoneRE text.data 0 = none →
        firstMatchAt phoneFallbackRE text.data 0 = none)
  ∧ ∀ (personTag text : String),
      (extractPersonalInfo personTag text).phone =
        match firstMatchAt phoneRE text.data 0 with
        | some q => strOfL (jsTrim (removeFirst phoneStripRE q.2.1))
        | none => "" := by
  constructor
  · intro text h
    exact phone_fallback_none h
  · intro pt text
    cases h : firstMatchAt phoneRE text.data 0 with
    | some q => simp [extractPersonalInfo, inferPhone, h]
    | none =>
      have hf := phone_fallback_none h
      simp [extractPersonalInfo, inferPhone, h, hf, strOfL]

/-- Claim C10 witness. -/
theorem C10_witness : firstMatchAt phoneFallbackRE "hello".data 0 = none :=
  C10_phone_fallback_unreachable.1 "hello" (by decide)

/-- Claim C5: when a phone label variant was matched (the primary match's
group 1 participated), the returned phone value has the label stripped — it
contains no ASCII letters at all, only the digits, punctuation and spaces of
the separator and phone pattern; and when no phone pattern matches anywhere
(the primary regex, whose label is optional, fails), the phone field is the
empty string. -/
theorem C5_phone_label_stripped :
    (∀ (personTag text : String) (p : Nat) (m0 : List Char) (caps : Caps) (L : List Char),
        firstMatchAt phoneRE text.data 0 = some (p, m0, caps) →
        caps.g1 = some L →
        ∀ ch ∈ (extractPersonalInfo personTag text).phone.data, isAsciiLetter ch = false)
  ∧ (∀ (personTag text : String), firstMatchAt phoneRE text.data 0 = none →
        (extractPersonalInfo personTag text).phone = "") := by
  constructor
  · intro pt text p m0 caps L h hg1 ch hch
    have hphone : (extractPersonalInfo pt text).phone.data = inferPhone text.data := rfl
    rw [hphone] at hch
    have h2 : inferPhone text.data = jsTrim (removeFirst phoneStripRE m0) := by
      simp only [inferPhone, h]
    rw [h2] at hch
    obtain ⟨j, q, hq, hcaps, hm0⟩ := firstMatchAt_some text.data 0 p m0 caps h
    have hqmem : q ∈ M phoneRE (text.data.drop j) ({} : Caps) :=
      List.mem_of_mem_head? (by simp [hq])
    have hg1q : q.2.g1 = some L := by rw [← hcaps]; exact hg1
    obtain ⟨w, rest2, hw, hci, hs, hrest⟩ := phone_match_structure hqmem hg1q
    have hm0' : m0 = L ++ rest2 := by
      rw [hm0, hs]
      have hl : (((L ++ rest2) ++ q.1).length - q.1.length) = (L ++ rest2).length := by
        simp only [List.length_append]
        omega
      rw [hl]
      exact List.take_left _ _
    rw [hm0'] at hch
    exact strip_nonletter hw hci hrest ch (mem_jsTrim hch)
  · intro pt text h
    have hf := phone_fallback_none h
    simp [extractPersonalInfo, inferPhone, h, hf, strOfL]

/-- Claim C5 witness: a labeled input whose stripped phone value is
letter-free, and an input with no phone pattern yielding the empty string. -/
theorem C5_witness :
    (∀ ch ∈ (extractPersonalInfo "" "Phone: 555-123-4567").phone.data,
      isAsciiLetter ch = false)
  ∧ (extractPersonalInfo "" "x").phone = "" := by
  constructor
  · exact C5_phone_label_stripped.1 "" "Phone: 555-123-4567" 0 "Phone: 555-123-4567".data
      { g1 := some "Phone".data, g2 := none } "Phone".data (by decide) rfl
  · exact C5_phone_label_stripped.2 "" "x" (by decide)

end JobApp
